import Mathlib

/-!
Verification of the change-point DP engine in `src/dp_tools/calc_dp_2.rs`.

Shallow embedding conventions:
* `Tau` and `NumChg` (from the `process_param` crate) are unsigned integers in
  Rust; they are modelled as `Nat`.  Wherever the Rust code subtracts and the
  subtrahend provably does not exceed the minuend, `Nat` subtraction coincides
  with the machine subtraction; the one place where an unsigned subtraction can
  underflow (`t_k - t_k_1 - 2` in `DictTT::value_tt`) is modelled explicitly by
  the `VtRes.panicSub` outcome.
* `CalcDpError` carries only a human-readable message, so it is modelled as a
  `String`.
* The generic value type `Val` of the solver (`CalcDP`) needs `Sum` and
  `PartialOrd`; it is instantiated with `Int` as a representative totally
  ordered additive type.  The `DictTT` layer is kept polymorphic in `Val`.
* The caller-supplied evaluator `calc_value(data, t_k_1, t_k)` together with
  its read-only dataset is modelled as one function
  `ev : Tau → Tau → Except CalcDpError Val`; a pure (never failing) evaluator
  is written `fun a b => Except.ok (g a b)`.
* Rust `Vec` indexing `v[i]` panics when `i` is out of bounds; in `value_tt`
  this reachable panic is modelled by the `VtRes.panicOob` outcome.  Inside the
  DP solver every index is guarded by `check_idx_memo`, so there the embedding
  uses total default-valued lookups (`nthD`).
* Mutation of the memo table is modelled by explicit state passing: each
  mutating operation returns the new memo, and (like the Rust `&mut` table) the
  memo obtained so far is kept even when a step returns an error.
-/

/-- Time index type `Tau` (unsigned in Rust, virtual sentinel `0`). -/
abbrev Tau := Nat

/-- Change-count type `NumChg` (unsigned in Rust). -/
abbrev NumChg := Nat

/-- The error type of the module: a single kind carrying a message. -/
abbrev CalcDpError := String

/-- List lookup returning `Option`, mirroring a checked `Vec` access. -/
def nthO {α : Type} : List α → Nat → Option α
  | [], _ => none
  | x :: _, 0 => some x
  | _ :: xs, n + 1 => nthO xs n

/-- Total list lookup with a default, used where the Rust index is guarded. -/
def nthD {α : Type} (l : List α) (n : Nat) (d : α) : α := (nthO l n).getD d

/-- In-place update of index `n` (no-op out of range), mirroring `v[n] = x`. -/
def setNth {α : Type} : List α → Nat → α → List α
  | [], _, _ => []
  | _ :: xs, 0, a => a :: xs
  | x :: xs, n + 1, a => x :: setNth xs n a

/-- The list `[lo, lo+1, ..., lo+len-1]`, used for Rust `lo..hi` ranges. -/
def natRange (lo : Nat) : Nat → List Nat
  | 0 => []
  | len + 1 => lo :: natRange (lo + 1) len

/-- Rust inclusive range `lo..=hi` as a list. -/
def rangeIncl (lo hi : Nat) : List Nat := natRange lo (hi + 1 - lo)

/-- Left-to-right sum with zero, the `Iterator::sum` reduction. -/
def listSum {Val : Type} [Add Val] [Zero Val] (l : List Val) : Val :=
  l.foldr (fun a b => a + b) 0

/-- Rust `Vec::pop` composed on a copy: the list without its last element. -/
def popLast {α : Type} : List α → List α
  | [] => []
  | [_] => []
  | x :: xs => x :: popLast xs

/-- Sequential short-circuiting `collect::<Result<Vec<_>,_>>` over `Except`.
(The Rust cache build runs row computations in parallel and which error wins is
unspecified when several rows fail; the embedding fixes the first one.) -/
def mapExcept {α β : Type} (f : α → Except CalcDpError β) :
    List α → Except CalcDpError (List β)
  | [] => Except.ok []
  | x :: xs =>
    match f x with
    | Except.error e => Except.error e
    | Except.ok y =>
      match mapExcept f xs with
      | Except.error e => Except.error e
      | Except.ok ys => Except.ok (y :: ys)

/-- `order_change_point` (calc_dp_2.rs:22-34): the ordering/spacing validator. -/
def order_change_point (t_k_1 t_k : Tau) : Except CalcDpError Unit :=
  if t_k = 0 then
    Except.error s!"Index tau_\x7bk\x7d (={t_k}) must be greater than 0."
  else if t_k_1 ≥ t_k - 1 ∧ ¬(t_k = 1 ∧ t_k_1 = 0) then
    Except.error
      s!"Index tau_\x7bk\x7d (={t_k}) must be greater than tau_\x7bk-1\x7d + 1 (= {t_k_1}+1)"
  else Except.ok ()

/-- Outcome of a `DictTT::value_tt` lookup.  `ok`/`err` are the Rust
`Ok`/`Err`; `panicOob` marks a reachable out-of-bounds `Vec` index (a panic in
Rust); `panicSub` marks the unsigned subtraction `t_k - t_k_1 - 2`
underflowing (a panic in debug builds; in release builds the value wraps to a
huge index and the function then reports an out-of-range error). -/
inductive VtRes (Val : Type) where
  | ok (v : Val)
  | err (msg : CalcDpError)
  | panicOob
  | panicSub
  deriving DecidableEq, Repr

/-- Bool test for the `ok` outcome of a `VtRes`. -/
def vtIsOk {Val : Type} : VtRes Val → Bool
  | VtRes.ok _ => true
  | _ => false

/-- Bool test for the `err` outcome of a `VtRes`. -/
def vtIsErr {Val : Type} : VtRes Val → Bool
  | VtRes.err _ => true
  | _ => false

/-- `DictTT::value_tt` (calc_dp_2.rs:72-94) on a built table `vals_all`:
validate the ordering, then look up `vals_all[t_k_1][t_k - t_k_1 - 2]`,
reporting an out-of-range error only when the length is strictly smaller than
the index (the source compares with `<`, so an index equal to the length slips
past the check and the subsequent `Vec` access panics). -/
def value_tt {Val : Type} (vals_all : List (List Val)) (t_k_1 t_k : Tau) : VtRes Val :=
  match order_change_point t_k_1 t_k with
  | Except.error e => VtRes.err e
  | Except.ok _ =>
    if vals_all.length < t_k_1 then
      VtRes.err s!"Index tau_\x7bk - 1\x7d (={t_k_1}) is out of range."
    else
      match nthO vals_all t_k_1 with
      | none => VtRes.panicOob
      | some vals_tau_k_1 =>
        if t_k < t_k_1 + 2 then VtRes.panicSub
        else
          let index_tt := t_k - t_k_1 - 2
          if vals_tau_k_1.length < index_tt then
            VtRes.err
              s!"Index tau_\x7bk\x7d (={t_k}) must be greater than tau_\x7bk-1\x7d + 1 (={t_k_1} + 1)"
          else
            match nthO vals_tau_k_1 index_tt with
            | none => VtRes.panicOob
            | some v => VtRes.ok v

/-- `DictTT::calc_value_all` (calc_dp_2.rs:109-116): for every
`t_k_1 ∈ 0..t_max-1` and `t_k ∈ (t_k_1+2)..=t_max` compute the evaluator and
assemble the jagged table.  `ev` stands for `calc_value(data, ·, ·)`. -/
def calc_value_all {Val : Type} (ev : Tau → Tau → Except CalcDpError Val)
    (t_max : Tau) : Except CalcDpError (List (List Val)) :=
  mapExcept
    (fun t_k_1 => mapExcept (fun t_k => ev t_k_1 t_k) (rangeIncl (t_k_1 + 2) t_max))
    (natRange 0 (t_max - 1))

/-- Short-circuiting collect over `VtRes`: the first non-`ok` outcome wins. -/
def collectVt {Val : Type} : List (VtRes Val) → VtRes (List Val)
  | [] => VtRes.ok []
  | r :: rs =>
    match r with
    | VtRes.ok v =>
      match collectVt rs with
      | VtRes.ok vs => VtRes.ok (v :: vs)
      | VtRes.err e => VtRes.err e
      | VtRes.panicOob => VtRes.panicOob
      | VtRes.panicSub => VtRes.panicSub
    | VtRes.err e => VtRes.err e
    | VtRes.panicOob => VtRes.panicOob
    | VtRes.panicSub => VtRes.panicSub

/-- `DictToFunc::sum_frol_cp` (calc_dp_2.rs:141-153): prepend the virtual
start `0`, drop the last element, zip with the change points to obtain the
consecutive pairs, look every pair up with `value_tt` and sum the results. -/
def sum_frol_cp {Val : Type} [Add Val] [Zero Val] (vals_all : List (List Val))
    (change_points : List Tau) : VtRes Val :=
  match collectVt
      (((popLast (0 :: change_points)).zip change_points).map
        fun pr => value_tt vals_all pr.1 pr.2) with
  | VtRes.ok vals => VtRes.ok (listSum vals)
  | VtRes.err e => VtRes.err e
  | VtRes.panicOob => VtRes.panicOob
  | VtRes.panicSub => VtRes.panicSub

/-- Consecutive pairs `(prev, c1), (c1, c2), …` of a change-point sequence,
written as a direct recursion (spec-side description of the pairing that
`sum_frol_cp` builds by zipping). -/
def consecFrom (prev : Nat) : List Nat → List (Nat × Nat)
  | [] => []
  | c :: cs => (prev, c) :: consecFrom c cs

/-- Bool test for the `ok` outcome of an `Except`. -/
def exceptOk {ε α : Type} : Except ε α → Bool
  | Except.ok _ => true
  | _ => false

deriving instance DecidableEq for Except


/-- A memo cell `(previous change point, change count, value)`; `Tau` and
`NumChg` are written as plain `Nat` here (they are definitionally equal). -/
abbrev Cell := Nat × Nat × Int

/-- The memo table: row `k` holds the cells for change count `k`, the cell of
state `(t, k)` living at column `t - 2*k`. -/
abbrev Memo := List (List (Option Cell))

/-- `CalcDP::calc_max_k` (calc_dp_2.rs:371-374): `⌊(t_max - 1) / 2⌋`. -/
def calc_max_k (t_max : Tau) : NumChg := (t_max - 1) / 2

/-- `CalcDP::check_idx_memo` (calc_dp_2.rs:251-272): bounds check for `(t, k)`
against the memo (`t` against the length of row 0, `t = 0`, and
`k ≤ calc_max_k t`). -/
def check_idx_memo (t : Tau) (k : NumChg) (memo : Memo) : Except CalcDpError Unit :=
  if t > (memo.headD []).length - 1 then
    Except.error s!"Time step t = {t} is out of range."
  else if t = 0 then
    Except.error "Time step must be greater than 0"
  else
    let max_k := calc_max_k t
    if k > max_k then
      Except.error
        s!"The number of change point k (= {k}) must be less than ceil( (t-1)/2 ) (= {max_k})."
    else Except.ok ()

/-- `CalcDP::get_from_memo` (calc_dp_2.rs:281-284): checked read of cell
`(t, k)` at `memo[k][t - k*2]`. -/
def get_from_memo (t : Tau) (k : NumChg) (memo : Memo) :
    Except CalcDpError (Option Cell) :=
  match check_idx_memo t k memo with
  | Except.error e => Except.error e
  | Except.ok _ => Except.ok (nthD (nthD memo k []) (t - k * 2) none)

/-- Raw position read of the memo (row `k`, column `idx`), used to state
invariants without the `t - 2k` shift. -/
def cellAt (memo : Memo) (k idx : Nat) : Option Cell := nthD (nthD memo k []) idx none

/-- Write `memo[k][idx] = some c`. -/
def setCell (memo : Memo) (k idx : Nat) (c : Cell) : Memo :=
  setNth memo k (setNth (nthD memo k []) idx (some c))

/-- `CalcDP::set_from_memo` (calc_dp_2.rs:294-299): checked write of `val`
into cell `(t, val.1)` at `memo[k][t - k*2]`; returns the written value. -/
def set_from_memo (t : Tau) (val : Cell) (memo : Memo) :
    Except CalcDpError Cell × Memo :=
  match check_idx_memo t val.2.1 memo with
  | Except.error e => (Except.error e, memo)
  | Except.ok _ => (Except.ok val, setCell memo val.2.1 (t - val.2.1 * 2) val)

/-- The candidate selection of `CalcDP::calc_memo` (calc_dp_2.rs:344-351):
`vals.iter().reduce(|acc, val| if acc.2 <= val.2 { val } else { acc })`.
Scanning left to right, a candidate replaces the incumbent whenever its value
is greater than or equal. -/
def chooseMax (vals : List Cell) : Option Cell :=
  match vals with
  | [] => none
  | v :: vs => some (vs.foldl (fun acc val => if acc.2.2 ≤ val.2.2 then val else acc) v)

/-- The predecessor loop of `CalcDP::calc_memo` (calc_dp_2.rs:326-341) for a
state `(t, kp+1)`: for each candidate predecessor `i` fetch (or recursively
compute, via `sub`) the cell at `(i, kp)`, add `ev i t`, and accumulate the
candidate `(i, kp+1, value)`.  The memo is threaded through; on an error the
memo mutated so far is kept (the Rust table is mutated in place). -/
def memoScan (ev : Tau → Tau → Except CalcDpError Int)
    (sub : Tau → Memo → Except CalcDpError Cell × Memo)
    (kp : NumChg) (t : Tau) :
    List Tau → List Cell → Memo → Except CalcDpError (List Cell) × Memo
  | [], vs, m => (Except.ok vs, m)
  | i :: rest, vs, m =>
    match get_from_memo i kp m with
    | Except.error e => (Except.error e, m)
    | Except.ok r =>
      match (match r with
             | some v => (Except.ok v, m)
             | none => sub i m) with
      | (Except.error e, m2) => (Except.error e, m2)
      | (Except.ok tpl, m2) =>
        match ev i t with
        | Except.error e => (Except.error e, m2)
        | Except.ok val_tt =>
          memoScan ev sub kp t rest (vs ++ [(i, kp + 1, tpl.2.2 + val_tt)]) m2

/-- `CalcDP::calc_memo` (calc_dp_2.rs:309-361): the memoized DP recurrence.
`k = 0`: return the cached cell or store `(0, 0, ev 0 t)`.  `k > 0`: scan the
candidate predecessors `i ∈ [2k-1, t-2]`, select the maximum with the
greater-or-equal tie-break, and store the selected cell at `(t, k)`. -/
def calc_memo (ev : Tau → Tau → Except CalcDpError Int) :
    NumChg → Tau → Memo → Except CalcDpError Cell × Memo
  | 0, t, memo =>
    (match check_idx_memo t 0 memo with
     | Except.error e => (Except.error e, memo)
     | Except.ok _ =>
       match get_from_memo t 0 memo with
       | Except.error e => (Except.error e, memo)
       | Except.ok (some v) => (Except.ok v, memo)
       | Except.ok none =>
         match ev 0 t with
         | Except.error e => (Except.error e, memo)
         | Except.ok eval => set_from_memo t (0, 0, eval) memo)
  | k + 1, t, memo =>
    (match check_idx_memo t (k + 1) memo with
     | Except.error e => (Except.error e, memo)
     | Except.ok _ =>
       match memoScan ev (fun i m => calc_memo ev k i m) k t
           (natRange (2 * (k + 1) - 1) (t - 1 - (2 * (k + 1) - 1))) [] memo with
       | (Except.error e, m2) => (Except.error e, m2)
       | (Except.ok vals, m2) =>
         match chooseMax vals with
         | none => (Except.error "Failed to compute dynamic programming memo.", m2)
         | some mv => set_from_memo t mv m2)

/-- The sequential `for k in 0..=k_max` loop of `CalcDP::calc_memo_all`
(calc_dp_2.rs:177-179); an error aborts and drops the memo, as the Rust `?`
returns before the table is handed back. -/
def calc_memo_all_go (ev : Tau → Tau → Except CalcDpError Int) (t_max : Tau) :
    List NumChg → Memo → Except CalcDpError Memo
  | [], m => Except.ok m
  | k :: ks, m =>
    match calc_memo ev k t_max m with
    | (Except.error e, _) => Except.error e
    | (Except.ok _, m2) => calc_memo_all_go ev t_max ks m2

/-- `CalcDP::calc_memo_all` (calc_dp_2.rs:171-182): allocate the jagged memo
(row `i` of length `t_max - 2i + 1`, all unfilled) and run the recursive fill
rooted at `(t_max, k)` for each `k ∈ 0..=calc_max_k t_max`. -/
def calc_memo_all (ev : Tau → Tau → Except CalcDpError Int) (t_max : Tau) :
    Except CalcDpError Memo :=
  let k_max := calc_max_k t_max
  let memo0 : Memo :=
    (natRange 0 (k_max + 1)).map fun i => List.replicate (t_max - 2 * i + 1) none
  calc_memo_all_go ev t_max (natRange 0 (k_max + 1)) memo0

/-- `CalcDP::get_value` (calc_dp_2.rs:235-242): the stored value at `(t, k)`,
failing when the cell is unfilled. -/
def get_value (memo : Memo) (t : Tau) (k : NumChg) : Except CalcDpError Int :=
  match get_from_memo t k memo with
  | Except.error e => Except.error e
  | Except.ok (some v) => Except.ok v.2.2
  | Except.ok none => Except.error "Value has not calculated yet."

/-- The backtracking loop of `CalcDP::get_value_history`
(calc_dp_2.rs:200-225), with explicit fuel.  The Rust loop runs while
`now_t > 0`; each iteration reads the current cell (failing on an unfilled
one), moves `now_t` to the stored predecessor, and decrements `now_k` when the
stored count is nonzero.  The fuel-exhaustion branch models divergence of the
Rust loop (reachable only on a memo whose predecessors do not decrease; never
hit on tables built by `calc_memo_all`). -/
def historyGo (memo : Memo) : Nat → Tau → NumChg → Except CalcDpError (List Cell)
  | 0, now_t, _ =>
    if now_t = 0 then Except.ok []
    else Except.error "history loop fuel exhausted (models divergence)"
  | fuel + 1, now_t, now_k =>
    if now_t = 0 then Except.ok []
    else
      match get_from_memo now_t now_k memo with
      | Except.error e => Except.error e
      | Except.ok none => Except.error "Uncalculated value exist."
      | Except.ok (some c) =>
        match historyGo memo fuel c.1 (if c.2.1 ≠ 0 then c.2.1 - 1 else now_k) with
        | Except.error e => Except.error e
        | Except.ok rest => Except.ok (c :: rest)

/-- `CalcDP::get_value_history` (calc_dp_2.rs:200-225): backtrack from
`(t, k)`; `t + 1` units of fuel always suffice on a memo whose stored
predecessors strictly decrease. -/
def get_value_history (memo : Memo) (t : Tau) (k : NumChg) :
    Except CalcDpError (List Cell) :=
  historyGo memo (t + 1) t k

/-- Pure evaluator wrapper: `pureEv g` is the evaluator that never fails and
scores segment `(a, b]` as `g a b`. -/
def pureEv (g : Nat → Nat → Int) : Tau → Tau → Except CalcDpError Int :=
  fun a b => Except.ok (g a b)

/-- Spec side: all spacing-valid change-point sequences with `k` interior
change points followed by the final point `t` (so of length `k + 1`, strictly
increasing, consecutive gaps at least 2 except that the very first segment may
be `(0, 1)`, ending exactly at `t`). -/
def chains : Nat → Nat → List (List Nat)
  | 0, t => if 1 ≤ t then [[t]] else []
  | k + 1, t => (natRange 0 (t - 1)).flatMap fun i => (chains k i).map fun s => s ++ [t]

/-- Spec side: the additive score of a change-point sequence, summing the pure
evaluator over the consecutive segments from the virtual start `0`. -/
def chainScore (g : Nat → Nat → Int) (s : List Nat) : Int :=
  listSum ((consecFrom 0 s).map fun pr => g pr.1 pr.2)

/-- `v` is the optimal score among all valid sequences for state `(t, k)`. -/
def IsBest (g : Nat → Nat → Int) (t : Nat) (k : Nat) (v : Int) : Prop :=
  (∃ s, s ∈ chains k t ∧ chainScore g s = v) ∧
  ∀ s ∈ chains k t, chainScore g s ≤ v

/-- Shape of a memo allocated by `calc_memo_all` for horizon `t_max`. -/
def MemoShape (t_max : Nat) (memo : Memo) : Prop :=
  memo.length = calc_max_k t_max + 1 ∧
  ∀ i, i < memo.length → (nthD memo i []).length = t_max - 2 * i + 1

/-- Well-formedness of one filled cell at row `k`, column `idx` (state
`t = idx + 2k`): the stored count is the row's `k`, the stored value is
optimal, the stored predecessor is the virtual start for `k = 0` and otherwise
lies in the candidate range and points at a filled cell one level down. -/
def CellOK (g : Nat → Nat → Int) (memo : Memo) (k idx : Nat) (c : Cell) : Prop :=
  c.2.1 = k ∧
  IsBest g (idx + k * 2) k c.2.2 ∧
  (k = 0 → c.1 = 0) ∧
  ∀ kp, k = kp + 1 →
    kp * 2 + 1 ≤ c.1 ∧ c.1 + 2 ≤ idx + k * 2 ∧ cellAt memo kp (c.1 - kp * 2) ≠ none

/-- Invariant of the memo during a `calc_memo_all` run with pure evaluator
`g`: correct shape, and every filled cell is well formed. -/
def MemoInv (g : Nat → Nat → Int) (t_max : Nat) (memo : Memo) : Prop :=
  MemoShape t_max memo ∧ ∀ k idx c, cellAt memo k idx = some c → CellOK g memo k idx c

/-- Bool test: the list of visited times strictly decreases. -/
def strictDecreasing : List Nat → Bool
  | [] => true
  | [_] => true
  | a :: b :: rest => decide (b < a) && strictDecreasing (b :: rest)

/-- Last element of a list with a default. -/
def lastD : List Nat → Nat → Nat
  | [], d => d
  | [a], _ => a
  | _ :: b :: rest, d => lastD (b :: rest) d

/-- The memo produced by `calc_memo_all` with the constant-1 evaluator and
`t_max = 6` (checked below). -/
def memoSix : Memo :=
  [[none, some (0, 0, 1), some (0, 0, 1), some (0, 0, 1), some (0, 0, 1), none,
    some (0, 0, 1)],
   [none, some (1, 1, 2), some (2, 1, 2), none, some (4, 1, 2)],
   [none, none, some (4, 2, 3)]]

/-- The pairwise table produced by `calc_value_all` with the constant-1
evaluator and `t_max = 6` (checked below). -/
def tblSix : List (List Int) :=
  [[1, 1, 1, 1, 1], [1, 1, 1, 1], [1, 1, 1], [1, 1], [1]]

/-- The all-unfilled memo allocated for `t_max = 6`. -/
def memoInitSix : Memo :=
  [[none, none, none, none, none, none, none],
   [none, none, none, none, none],
   [none, none, none]]

/-- C9: `order_change_point(t_prev, t_cur)` fails iff `t_cur = 0` or
(`t_prev ≥ t_cur - 1` and `(t_cur, t_prev) ≠ (1, 0)`); in particular `(0,1)`
succeeds, `(1,2)` fails, `(1,3)` succeeds, and `(x,0)` fails for every `x`. -/
theorem c9_order_change_point_spec :
    (∀ t_k_1 t_k : Tau, exceptOk (order_change_point t_k_1 t_k) = true ↔
      (t_k ≠ 0 ∧ (¬t_k_1 ≥ t_k - 1 ∨ (t_k = 1 ∧ t_k_1 = 0)))) ∧
    exceptOk (order_change_point 0 1) = true ∧
    exceptOk (order_change_point 1 2) = false ∧
    exceptOk (order_change_point 1 3) = true ∧
    (∀ x : Tau, exceptOk (order_change_point x 0) = false) := by
  have key : ∀ t_k_1 t_k : Tau, exceptOk (order_change_point t_k_1 t_k) = true ↔
      (t_k ≠ 0 ∧ (¬t_k_1 ≥ t_k - 1 ∨ (t_k = 1 ∧ t_k_1 = 0))) := by
    intro a b
    unfold order_change_point
    split_ifs with h1 h2
    · simp [exceptOk, h1]
    · simp only [exceptOk, Bool.false_eq_true, false_iff]
      tauto
    · simp only [exceptOk, true_iff]
      constructor
      · exact h1
      · tauto
  refine ⟨key, by decide, by decide, by decide, ?_⟩
  intro x
  have h := key x 0
  revert h
  cases exceptOk (order_change_point x 0) <;> simp

/-- C10: `order_change_point` accepts the sentinel pair `(0, 1)`, yet in
`value_tt` the index computation `t_k - t_k_1 - 2` underflows the unsigned
time type on that pair (on every nonempty table the row access happens first,
then the subtraction underflows); the lookup avoids the underflow exactly
under the stronger precondition `t_k ≥ t_k_1 + 2`. -/
theorem c10_value_tt_sentinel_underflow :
    exceptOk (order_change_point 0 1) = true ∧
    (∀ (Val : Type) (tbl : List (List Val)), tbl ≠ [] →
      value_tt tbl 0 1 = VtRes.panicSub) ∧
    (∀ (Val : Type) (tbl : List (List Val)) (a b : Nat), a + 2 ≤ b →
      value_tt tbl a b ≠ VtRes.panicSub) := by
  refine ⟨by decide, ?_, ?_⟩
  · intro Val tbl h
    unfold value_tt
    have hord : order_change_point 0 1 = Except.ok () := rfl
    rw [hord]
    cases tbl with
    | nil => exact absurd rfl h
    | cons r rs => simp [nthO]
  · intro Val tbl a b hab
    unfold value_tt
    cases hord : order_change_point a b with
    | error e => simp
    | ok u =>
      simp only
      by_cases h1 : tbl.length < a
      · rw [if_pos h1]
        simp
      · rw [if_neg h1]
        cases hrow : nthO tbl a with
        | none => simp
        | some row =>
          simp only
          rw [if_neg (by omega : ¬b < a + 2)]
          by_cases h2 : row.length < b - a - 2
          · rw [if_pos h2]
            simp
          · rw [if_neg h2]
            cases hv : nthO row (b - a - 2) <;> simp

/-- C4 exhibit: on the table built for `t_max = 3` (two rows), the lookup
`value_tt(2, 4)` passes the ordering check, and because the source guards the
row access with `len < t_prev` instead of `len ≤ t_prev`, the access
`vals_all[2]` is out of bounds and panics instead of returning `Err`; the same
off-by-one happens for the derived second index in `value_tt(0, 4)`
(index 2 into the length-2 row 0).  Only a strictly larger index
(`value_tt(3, 5)`, `value_tt(0, 5)`) produces the out-of-range error the claim
describes. -/
theorem c4_value_tt_boundary_panics :
    calc_value_all (fun a b => Except.ok (10 * a + b : Nat)) 3 =
      Except.ok [[2, 3], [13]] ∧
    value_tt [[(2 : Nat), 3], [13]] 2 4 = VtRes.panicOob ∧
    value_tt [[(2 : Nat), 3], [13]] 0 4 = VtRes.panicOob ∧
    vtIsErr (value_tt [[(2 : Nat), 3], [13]] 3 5) = true ∧
    vtIsErr (value_tt [[(2 : Nat), 3], [13]] 0 5) = true := by
  decide

/-- C5 counterexample: with the injective evaluator `f a b = 10*a + b` and
`t_max = 3`, the built table is `[[2, 3], [13]]`: row 0 holds only the entries
for `t_cur ∈ {2, 3}` (two entries, not three) and the sentinel value
`f 0 1 = 1` appears nowhere, so the table does not contain an entry for the
special pair `(0, 1)`. -/
theorem c5_no_sentinel_entry :
    calc_value_all (fun a b => Except.ok (10 * a + b : Nat)) 3 =
      Except.ok [[2, 3], [13]] ∧
    (∀ row ∈ [[(2 : Nat), 3], [13]], ∀ v ∈ row, v ≠ 1) ∧
    List.map List.length [[(2 : Nat), 3], [13]] = [2, 1] := by
  decide

/-- C3: with the constant-1 evaluator and `t_max = 6`, `calc_memo_all`
produces `memoSix`; `get_value (6, 2)` returns `3`, backtracking from `(6, 2)`
returns the cells `(4,2,3), (2,1,2), (0,0,1)`, and the visited times
(the reconstructed change points, reversed into increasing order) are
`[2, 4, 6]` — the ≥ tie-break selected predecessor 4 over the tied
predecessor 3. -/
theorem c3_constant_one_t6 :
    calc_memo_all (fun _ _ => Except.ok (1 : Int)) 6 = Except.ok memoSix ∧
    get_value memoSix 6 2 = Except.ok 3 ∧
    get_value_history memoSix 6 2 = Except.ok [(4, 2, 3), (2, 1, 2), (0, 0, 1)] ∧
    (popLast (6 :: List.map (fun c : Cell => c.1) [(4, 2, 3), (2, 1, 2), (0, 0, 1)])).reverse
      = [2, 4, 6] := by
  refine ⟨by decide, by decide, by decide, by decide⟩

theorem length_natRange (lo len : Nat) : (natRange lo len).length = len := by
  induction len generalizing lo with
  | zero => rfl
  | succ n ih => simp [natRange, ih]

theorem nthO_natRange (lo len i : Nat) (h : i < len) :
    nthO (natRange lo len) i = some (lo + i) := by
  induction len generalizing lo i with
  | zero => omega
  | succ n ih =>
    cases i with
    | zero => simp [natRange, nthO]
    | succ j =>
      have := ih (lo + 1) j (by omega)
      simp only [natRange, nthO, this]
      congr 1
      omega

theorem nthO_map {α β : Type} (f : α → β) (l : List α) (i : Nat) :
    nthO (l.map f) i = (nthO l i).map f := by
  induction l generalizing i with
  | nil => simp [nthO]
  | cons x xs ih =>
    cases i with
    | zero => simp [nthO]
    | succ j => simp [nthO, ih]

theorem mapExcept_pure {α β : Type} (f : α → β) (l : List α) :
    mapExcept (fun x => Except.ok (f x)) l = Except.ok (l.map f) := by
  induction l with
  | nil => rfl
  | cons x xs ih => simp [mapExcept, ih]

/-- C5 (amended): for every evaluator that succeeds on all pairs and every
`t_max ≥ 1`, `calc_value_all` returns the table whose row `t_prev`
(`t_prev < t_max - 1`) has length `t_max - t_prev - 1` and holds exactly the
entries `calc_value(t_prev, t_cur)` for `t_cur ∈ (t_prev+2)..=t_max` at
position `t_cur - t_prev - 2`; there is no entry for the sentinel pair
`(0, 1)`. -/
theorem c5_calc_value_all_exact {Val : Type} (f : Nat → Nat → Val) (t_max : Nat)
    (ht : 1 ≤ t_max) :
    ∃ tbl, calc_value_all (fun a b => Except.ok (f a b)) t_max = Except.ok tbl ∧
      tbl.length = t_max - 1 ∧
      ∀ tp, tp < t_max - 1 → ∃ row, nthO tbl tp = some row ∧
        row.length = t_max - tp - 1 ∧
        ∀ tc, tp + 2 ≤ tc → tc ≤ t_max → nthO row (tc - tp - 2) = some (f tp tc) := by
  refine ⟨(natRange 0 (t_max - 1)).map fun tp => (rangeIncl (tp + 2) t_max).map (f tp),
    ?_, ?_, ?_⟩
  · unfold calc_value_all
    have hrows : (fun t_k_1 => mapExcept (fun t_k => Except.ok (f t_k_1 t_k))
        (rangeIncl (t_k_1 + 2) t_max)) =
        (fun t_k_1 => Except.ok ((rangeIncl (t_k_1 + 2) t_max).map (f t_k_1))) := by
      funext tp
      exact mapExcept_pure (f tp) _
    rw [hrows, mapExcept_pure]
  · simp [length_natRange]
  · intro tp htp
    rw [nthO_map, nthO_natRange 0 _ tp htp]
    refine ⟨_, rfl, ?_, ?_⟩
    · simp only [Nat.zero_add, rangeIncl, List.length_map, length_natRange]
      omega
    · intro tc h2 h3
      rw [Nat.zero_add, nthO_map, rangeIncl,
        nthO_natRange (tp + 2) (t_max + 1 - (tp + 2)) (tc - tp - 2) (by omega)]
      have harg : tp + 2 + (tc - tp - 2) = tc := by omega
      rw [harg]
      rfl

/-- Witness for `c5_calc_value_all_exact` at `f a b = 10*a + b`, `t_max = 3`. -/
theorem c5_calc_value_all_exact_witness :
    (1 ≤ 3) ∧
    ∃ tbl, calc_value_all (fun a b => Except.ok (10 * a + b : Nat)) 3 = Except.ok tbl ∧
      tbl.length = 3 - 1 ∧
      ∀ tp, tp < 3 - 1 → ∃ row, nthO tbl tp = some row ∧
        row.length = 3 - tp - 1 ∧
        ∀ tc, tp + 2 ≤ tc → tc ≤ 3 → nthO row (tc - tp - 2) = some (10 * tp + tc) :=
  ⟨by decide, c5_calc_value_all_exact (fun a b => 10 * a + b) 3 (by decide)⟩

theorem zip_popLast_consecFrom (p : Nat) (cps : List Nat) :
    (popLast (p :: cps)).zip cps = consecFrom p cps := by
  induction cps generalizing p with
  | nil => rfl
  | cons c cs ih =>
    show ((p :: popLast (c :: cs)).zip (c :: cs)) = (p, c) :: consecFrom c cs
    rw [List.zip_cons_cons, ih]

theorem collectVt_map_ok {Val α : Type} (f : α → VtRes Val) (w : α → Val) :
    ∀ l : List α, (∀ x ∈ l, f x = VtRes.ok (w x)) →
      collectVt (l.map f) = VtRes.ok (l.map w) := by
  intro l
  induction l with
  | nil => intro _; rfl
  | cons x xs ih =>
    intro h
    have hx := h x (List.mem_cons_self x xs)
    have hxs := ih fun y hy => h y (List.mem_cons_of_mem x hy)
    simp [collectVt, hx, hxs]

theorem collectVt_map_err {Val α : Type} (f : α → VtRes Val) (e : CalcDpError) :
    ∀ (l1 : List α) (x : α) (l2 : List α),
      (∀ y ∈ l1, ∃ v, f y = VtRes.ok v) → f x = VtRes.err e →
      collectVt ((l1 ++ x :: l2).map f) = VtRes.err e := by
  intro l1
  induction l1 with
  | nil =>
    intro x l2 _ hx
    simp [collectVt, hx]
  | cons y ys ih =>
    intro x l2 h hx
    obtain ⟨v, hv⟩ := h y (List.mem_cons_self y ys)
    have hrest : collectVt (List.map f (ys.append (x :: l2))) = VtRes.err e :=
      ih x l2 (fun z hz => h z (List.mem_cons_of_mem y hz)) hx
    simp only [List.cons_append, List.map_cons, collectVt, hv, hrest]

/-- C8: `sum_frol_cp` looks up exactly the consecutive pairs obtained by
prepending the virtual start 0 and dropping the last change point; when every
lookup succeeds it returns their sum, and when a pair's lookup fails after a
prefix of successful ones it returns that first error. -/
theorem c8_sum_frol_cp_spec {Val : Type} [Add Val] [Zero Val] :
    (∀ (tbl : List (List Val)) (cps : List Nat) (w : Nat × Nat → Val),
      (∀ pr ∈ consecFrom 0 cps, value_tt tbl pr.1 pr.2 = VtRes.ok (w pr)) →
      sum_frol_cp tbl cps = VtRes.ok (listSum ((consecFrom 0 cps).map w))) ∧
    (∀ (tbl : List (List Val)) (cps : List Nat) (ps1 ps2 : List (Nat × Nat))
      (pr : Nat × Nat) (e : CalcDpError),
      consecFrom 0 cps = ps1 ++ pr :: ps2 →
      (∀ q ∈ ps1, ∃ v, value_tt tbl q.1 q.2 = VtRes.ok v) →
      value_tt tbl pr.1 pr.2 = VtRes.err e →
      sum_frol_cp tbl cps = VtRes.err e) := by
  constructor
  · intro tbl cps w h
    unfold sum_frol_cp
    rw [zip_popLast_consecFrom, collectVt_map_ok (fun pr => value_tt tbl pr.1 pr.2) w _ h]
  · intro tbl cps ps1 ps2 pr e hsplit hpre hx
    unfold sum_frol_cp
    rw [zip_popLast_consecFrom, hsplit,
      collectVt_map_err (fun pr => value_tt tbl pr.1 pr.2) e ps1 pr ps2 hpre hx]

/-- Witness for `c8_sum_frol_cp_spec`: on the `t_max = 3` table, the sequence
`[3]` sums to the single pair `(0,3)` lookup, and the sequence `[5, 6]` fails
with the error of its first pair `(0,5)`. -/
theorem c8_sum_frol_cp_spec_witness :
    sum_frol_cp [[(2 : Nat), 3], [13]] [3] =
      VtRes.ok (listSum ((consecFrom 0 [3]).map fun _ => (3 : Nat))) ∧
    ∃ e, sum_frol_cp [[(2 : Nat), 3], [13]] [5, 6] = VtRes.err e :=
  ⟨(c8_sum_frol_cp_spec.1 [[2, 3], [13]] [3] (fun _ => 3) (by decide)),
   ⟨_, c8_sum_frol_cp_spec.2 [[2, 3], [13]] [5, 6] [] [(5, 6)] (0, 5) _ rfl
     (by intro q hq; exact absurd hq (List.not_mem_nil q)) rfl⟩⟩

theorem chooseFold_mem : ∀ (vs : List Cell) (acc : Cell),
    vs.foldl (fun acc val => if acc.2.2 ≤ val.2.2 then val else acc) acc ∈ acc :: vs := by
  intro vs
  induction vs with
  | nil =>
    intro acc
    simp [List.foldl]
  | cons v vs ih =>
    intro acc
    have h := ih (if acc.2.2 ≤ v.2.2 then v else acc)
    show List.foldl _ (if acc.2.2 ≤ v.2.2 then v else acc) vs ∈ acc :: v :: vs
    rcases List.mem_cons.mp h with h | h
    · rw [h]
      by_cases hc : acc.2.2 ≤ v.2.2
      · rw [if_pos hc]
        exact List.mem_cons_of_mem _ (List.mem_cons_self v vs)
      · rw [if_neg hc]
        exact List.mem_cons_self acc _
    · exact List.mem_cons_of_mem _ (List.mem_cons_of_mem _ h)

theorem chooseFold_ub : ∀ (vs : List Cell) (acc d : Cell), d ∈ acc :: vs →
    d.2.2 ≤ (vs.foldl (fun acc val => if acc.2.2 ≤ val.2.2 then val else acc) acc).2.2 := by
  intro vs
  induction vs with
  | nil =>
    intro acc d hd
    rcases List.mem_cons.mp hd with h | h
    · rw [h]
      exact le_refl _
    · exact absurd h (List.not_mem_nil d)
  | cons v vs ih =>
    intro acc d hd
    show d.2.2 ≤ (List.foldl _ (if acc.2.2 ≤ v.2.2 then v else acc) vs).2.2
    rcases List.mem_cons.mp hd with h | h
    · have hstep : acc.2.2 ≤ (if acc.2.2 ≤ v.2.2 then v else acc).2.2 := by
        by_cases hc : acc.2.2 ≤ v.2.2
        · rw [if_pos hc]; exact hc
        · rw [if_neg hc]
      have := ih (if acc.2.2 ≤ v.2.2 then v else acc) _ (List.mem_cons_self _ vs)
      rw [h]
      exact le_trans hstep this
    rcases List.mem_cons.mp h with h2 | h2
    · have hstep : v.2.2 ≤ (if acc.2.2 ≤ v.2.2 then v else acc).2.2 := by
        by_cases hc : acc.2.2 ≤ v.2.2
        · rw [if_pos hc]
        · rw [if_neg hc]
          exact le_of_lt (lt_of_not_ge hc)
      have := ih (if acc.2.2 ≤ v.2.2 then v else acc) _ (List.mem_cons_self _ vs)
      rw [h2]
      exact le_trans hstep this
    · exact ih _ d (List.mem_cons_of_mem _ h2)

theorem chooseFold_all_lt : ∀ (vs : List Cell) (acc : Cell),
    (∀ d ∈ vs, d.2.2 < acc.2.2) →
    vs.foldl (fun acc val => if acc.2.2 ≤ val.2.2 then val else acc) acc = acc := by
  intro vs
  induction vs with
  | nil => intro acc _; rfl
  | cons v vs ih =>
    intro acc h
    have hv := h v (List.mem_cons_self v vs)
    show List.foldl _ (if acc.2.2 ≤ v.2.2 then v else acc) vs = acc
    rw [if_neg (not_le.mpr hv)]
    exact ih acc fun d hd => h d (List.mem_cons_of_mem v hd)

/-- C2: in the candidate selection of `calc_memo` (the left-to-right `reduce`
embodied by `chooseMax`), a candidate replaces the incumbent whenever its
value is greater than or equal: the selected cell is the one whose value is
maximal and that comes last among the maximal ones (everything before it is
`≤`, everything after it strictly smaller).  Concretely, for `(t, k) = (6, 1)`
with the constant-1 evaluator, all four candidate predecessors 1, 2, 3, 4 tie
and `calc_memo` selects the largest one, 4. -/
theorem c2_tie_break_prefers_later :
    (∀ (l1 l2 : List Cell) (c : Cell),
      (∀ d ∈ l1, d.2.2 ≤ c.2.2) → (∀ d ∈ l2, d.2.2 < c.2.2) →
      chooseMax (l1 ++ c :: l2) = some c) ∧
    (calc_memo (fun _ _ => Except.ok (1 : Int)) 1 6 memoInitSix).1 =
      Except.ok (4, 1, 2) := by
  constructor
  · intro l1 l2 c h1 h2
    cases l1 with
    | nil =>
      simp only [List.nil_append, chooseMax]
      rw [chooseFold_all_lt l2 c h2]
    | cons x xs =>
      simp only [List.cons_append, chooseMax]
      rw [List.foldl_append, List.foldl_cons]
      have hacc := chooseFold_mem xs x
      have hle : (xs.foldl (fun acc val => if acc.2.2 ≤ val.2.2 then val else acc) x).2.2
          ≤ c.2.2 := by
        rcases List.mem_cons.mp hacc with h | h
        · rw [h]
          exact h1 x (List.mem_cons_self x xs)
        · exact h1 _ (List.mem_cons_of_mem x h)
      rw [if_pos hle, chooseFold_all_lt l2 c h2]
  · decide

/-- Witness for `c2_tie_break_prefers_later`: among three candidates with
values `5, 4, 5`, the later of the two tied maxima is selected. -/
theorem c2_tie_break_prefers_later_witness :
    chooseMax [((1 : Nat), (1 : Nat), (5 : Int)), (3, 1, 4), (4, 1, 5)] = some (4, 1, 5) ∧
    (calc_memo (fun _ _ => Except.ok (1 : Int)) 1 6 memoInitSix).1 =
      Except.ok (4, 1, 2) :=
  ⟨c2_tie_break_prefers_later.1 [(1, 1, 5), (3, 1, 4)] [] (4, 1, 5) (by decide) (by decide),
   c2_tie_break_prefers_later.2⟩

/-- Witness for `c10_value_tt_sentinel_underflow` on the one-cell table. -/
theorem c10_value_tt_sentinel_underflow_witness :
    ([[(5 : Int)]] ≠ ([] : List (List Int))) ∧
    value_tt [[(5 : Int)]] 0 1 = VtRes.panicSub ∧
    (0 + 2 ≤ 2) ∧ value_tt [[(5 : Int)]] 0 2 ≠ VtRes.panicSub :=
  ⟨by decide, c10_value_tt_sentinel_underflow.2.1 Int [[5]] (by decide),
   by decide, c10_value_tt_sentinel_underflow.2.2 Int [[5]] 0 2 (by decide)⟩

theorem length_setNth {α : Type} : ∀ (l : List α) (n : Nat) (a : α),
    (setNth l n a).length = l.length := by
  intro l
  induction l with
  | nil => intro n a; rfl
  | cons x xs ih =>
    intro n a
    cases n with
    | zero => rfl
    | succ m => simp [setNth, ih]

theorem setNth_oob {α : Type} : ∀ (l : List α) (n : Nat) (a : α),
    l.length ≤ n → setNth l n a = l := by
  intro l
  induction l with
  | nil => intro n a _; rfl
  | cons x xs ih =>
    intro n a h
    cases n with
    | zero => simp at h
    | succ m =>
      simp only [setNth]
      rw [ih m a (by simpa using h)]

theorem nthO_setNth_self {α : Type} : ∀ (l : List α) (n : Nat) (a : α),
    n < l.length → nthO (setNth l n a) n = some a := by
  intro l
  induction l with
  | nil => intro n a h; simp at h
  | cons x xs ih =>
    intro n a h
    cases n with
    | zero => rfl
    | succ m => exact ih m a (by simpa using h)

theorem nthO_setNth_ne {α : Type} : ∀ (l : List α) (n m : Nat) (a : α),
    m ≠ n → nthO (setNth l n a) m = nthO l m := by
  intro l
  induction l with
  | nil => intro n m a _; rfl
  | cons x xs ih =>
    intro n m a h
    cases n with
    | zero =>
      cases m with
      | zero => exact absurd rfl h
      | succ j => rfl
    | succ i =>
      cases m with
      | zero => rfl
      | succ j => exact ih i j a (by omega)

theorem nthD_setNth_ne {α : Type} (l : List α) (n m : Nat) (a d : α) (h : m ≠ n) :
    nthD (setNth l n a) m d = nthD l m d := by
  unfold nthD
  rw [nthO_setNth_ne l n m a h]

theorem nthD_setNth_self {α : Type} (l : List α) (n : Nat) (a d : α) (h : n < l.length) :
    nthD (setNth l n a) n d = a := by
  unfold nthD
  rw [nthO_setNth_self l n a h]
  rfl

theorem nthD_row_setCell_ne (m : Memo) (k i : Nat) (c : Cell) (j : Nat) (h : j ≠ k) :
    nthD (setCell m k i c) j [] = nthD m j [] := by
  unfold setCell
  exact nthD_setNth_ne m k j _ [] h

theorem cellAt_setCell_ne (m : Memo) (k i : Nat) (c : Cell) (kq idx : Nat)
    (h : ¬(kq = k ∧ idx = i)) : cellAt (setCell m k i c) kq idx = cellAt m kq idx := by
  by_cases hk : kq = k
  · subst hk
    have hidx : idx ≠ i := fun hh => h ⟨rfl, hh⟩
    by_cases hlen : kq < m.length
    · unfold cellAt setCell
      rw [nthD_setNth_self m kq _ [] hlen, nthD_setNth_ne _ i idx _ none hidx]
    · unfold cellAt setCell
      rw [setNth_oob m kq _ (by omega)]
  · unfold cellAt setCell
    rw [nthD_setNth_ne m k kq _ [] hk]

theorem cellAt_setCell_self (m : Memo) (k i : Nat) (c : Cell)
    (hk : k < m.length) (hi : i < (nthD m k []).length) :
    cellAt (setCell m k i c) k i = some c := by
  unfold cellAt setCell
  rw [nthD_setNth_self m k _ [] hk, nthD_setNth_self _ i _ none hi]

theorem chooseMax_mem (l : List Cell) (c : Cell) (h : chooseMax l = some c) : c ∈ l := by
  cases l with
  | nil => exact absurd h (by simp [chooseMax])
  | cons v vs =>
    have : c = vs.foldl (fun acc val => if acc.2.2 ≤ val.2.2 then val else acc) v := by
      have := h
      unfold chooseMax at this
      exact (Option.some.inj this).symm
    rw [this]
    exact chooseFold_mem vs v

theorem get_from_memo_ok (t k : Nat) (memo : Memo) (r : Option Cell)
    (h : get_from_memo t k memo = Except.ok r) : r = cellAt memo k (t - k * 2) := by
  unfold get_from_memo at h
  cases hchk : check_idx_memo t k memo with
  | error e => rw [hchk] at h; exact absurd h (by simp)
  | ok u => rw [hchk] at h; exact (Except.ok.inj h).symm

theorem memoScan_preserve (ev : Nat → Nat → Except CalcDpError Int)
    (sub : Nat → Memo → Except CalcDpError Cell × Memo) (kp t : Nat)
    (hsub : ∀ (i : Nat) (m : Memo), cellAt m kp (i - kp * 2) = none →
      (∀ kq idx v, cellAt m kq idx = some v → cellAt (sub i m).2 kq idx = some v) ∧
      (∀ j, kp < j → nthD (sub i m).2 j [] = nthD m j [])) :
    ∀ (l : List Nat) (vs : List Cell) (m : Memo),
      (∀ kq idx v, cellAt m kq idx = some v →
        cellAt (memoScan ev sub kp t l vs m).2 kq idx = some v) ∧
      (∀ j, kp < j → nthD (memoScan ev sub kp t l vs m).2 j [] = nthD m j []) ∧
      (∀ res vals, memoScan ev sub kp t l vs m = (Except.ok vals, res) →
        ∀ c ∈ vals, c ∈ vs ∨ c.2.1 = kp + 1) := by
  intro l
  induction l with
  | nil =>
    intro vs m
    refine ⟨fun kq idx v h => h, fun j _ => rfl, ?_⟩
    intro res vals hres c hc
    have hv : vals = vs := by
      have h2 : (Except.ok vs : Except CalcDpError (List Cell)) = Except.ok vals :=
        congrArg Prod.fst hres
      exact (Except.ok.inj h2).symm
    rw [hv] at hc
    exact Or.inl hc
  | cons i rest ih =>
    intro vs m
    simp only [memoScan]
    cases hget : get_from_memo i kp m with
    | error e =>
      refine ⟨fun kq idx v h => h, fun j _ => rfl, ?_⟩
      intro res vals hres
      exact absurd (congrArg Prod.fst hres) (by simp)
    | ok r =>
      cases r with
      | some v =>
        cases hev : ev i t with
        | error e =>
          refine ⟨fun kq idx v h => h, fun j _ => rfl, ?_⟩
          intro res vals hres
          exact absurd (congrArg Prod.fst hres) (by simp)
        | ok vtt =>
          obtain ⟨p1, p2, p3⟩ := ih (vs ++ [(i, kp + 1, v.2.2 + vtt)]) m
          refine ⟨p1, p2, ?_⟩
          intro res vals hres c hc
          rcases p3 res vals hres c hc with hcv | hck
          · rcases List.mem_append.mp hcv with h | h
            · exact Or.inl h
            · right
              have : c = (i, kp + 1, v.2.2 + vtt) := by simpa using h
              rw [this]
          · exact Or.inr hck
      | none =>
        have hnone : cellAt m kp (i - kp * 2) = none :=
          (get_from_memo_ok i kp m none hget).symm
        obtain ⟨q1, q2⟩ := hsub i m hnone
        cases hsm : sub i m with
        | mk res2 m2 =>
          rw [hsm] at q1 q2
          cases res2 with
          | error e =>
            refine ⟨q1, q2, ?_⟩
            intro res vals hres
            exact absurd (congrArg Prod.fst hres) (by simp)
          | ok tpl =>
            cases hev : ev i t with
            | error e =>
              refine ⟨q1, q2, ?_⟩
              intro res vals hres
              exact absurd (congrArg Prod.fst hres) (by simp)
            | ok vtt =>
              obtain ⟨p1, p2, p3⟩ := ih (vs ++ [(i, kp + 1, tpl.2.2 + vtt)]) m2
              refine ⟨fun kq idx v h => p1 kq idx v (q1 kq idx v h),
                fun j hj => (p2 j hj).trans (q2 j hj), ?_⟩
              intro res vals hres c hc
              rcases p3 res vals hres c hc with hcv | hck
              · rcases List.mem_append.mp hcv with h | h
                · exact Or.inl h
                · right
                  have : c = (i, kp + 1, tpl.2.2 + vtt) := by simpa using h
                  rw [this]
              · exact Or.inr hck

theorem calc_memo_preserve (ev : Nat → Nat → Except CalcDpError Int) :
    ∀ (k t : Nat) (memo : Memo),
      (k ≠ 0 → cellAt memo k (t - k * 2) = none) →
      (∀ kq idx v, cellAt memo kq idx = some v →
        cellAt (calc_memo ev k t memo).2 kq idx = some v) ∧
      (∀ j, k < j → nthD (calc_memo ev k t memo).2 j [] = nthD memo j []) := by
  intro k
  induction k with
  | zero =>
    intro t memo _
    simp only [calc_memo]
    cases hchk : check_idx_memo t 0 memo with
    | error e => exact ⟨fun kq idx v h => h, fun j _ => rfl⟩
    | ok u =>
      cases hget : get_from_memo t 0 memo with
      | error e => exact ⟨fun kq idx v h => h, fun j _ => rfl⟩
      | ok r =>
        cases r with
        | some v => exact ⟨fun kq idx v h => h, fun j _ => rfl⟩
        | none =>
          have hnone : cellAt memo 0 (t - 0 * 2) = none :=
            (get_from_memo_ok t 0 memo none hget).symm
          cases hev : ev 0 t with
          | error e => exact ⟨fun kq idx v h => h, fun j _ => rfl⟩
          | ok eval =>
            simp only [set_from_memo]
            cases hchk2 : check_idx_memo t (0, 0, eval).2.1 memo with
            | error e => exact ⟨fun kq idx v h => h, fun j _ => rfl⟩
            | ok u2 =>
              constructor
              · intro kq idx v h
                have hne : ¬(kq = 0 ∧ idx = t - 0 * 2) := by
                  rintro ⟨h1, h2⟩
                  rw [h1, h2] at h
                  rw [hnone] at h
                  exact Option.noConfusion h
                rw [cellAt_setCell_ne memo 0 (t - 0 * 2) _ kq idx hne]
                exact h
              · intro j hj
                exact nthD_row_setCell_ne memo 0 (t - 0 * 2) _ j (by omega)
  | succ kp ih =>
    intro t memo hpre
    simp only [calc_memo]
    cases hchk : check_idx_memo t (kp + 1) memo with
    | error e => exact ⟨fun kq idx v h => h, fun j _ => rfl⟩
    | ok u =>
      have hsub : ∀ (i : Nat) (m : Memo), cellAt m kp (i - kp * 2) = none →
          (∀ kq idx v, cellAt m kq idx = some v →
            cellAt ((fun i m => calc_memo ev kp i m) i m).2 kq idx = some v) ∧
          (∀ j, kp < j → nthD ((fun i m => calc_memo ev kp i m) i m).2 j [] = nthD m j []) :=
        fun i m hn => ih i m (fun _ => hn)
      obtain ⟨s1, s2, s3⟩ := memoScan_preserve ev (fun i m => calc_memo ev kp i m) kp t hsub
        (natRange (2 * (kp + 1) - 1) (t - 1 - (2 * (kp + 1) - 1))) [] memo
      cases hscan : memoScan ev (fun i m => calc_memo ev kp i m) kp t
          (natRange (2 * (kp + 1) - 1) (t - 1 - (2 * (kp + 1) - 1))) [] memo with
      | mk res m2 =>
        rw [hscan] at s1 s2
        cases res with
        | error e =>
          dsimp only
          exact ⟨s1, fun j hj => s2 j (by omega)⟩
        | ok vals =>
          dsimp only
          cases hch : chooseMax vals with
          | none =>
            exact ⟨s1, fun j hj => s2 j (by omega)⟩
          | some mv =>
            have hmv : mv.2.1 = kp + 1 := by
              rcases s3 m2 vals hscan mv (chooseMax_mem vals mv hch) with h | h
              · exact absurd h (List.not_mem_nil mv)
              · exact h
            simp only [set_from_memo]
            rw [hmv]
            cases hchk2 : check_idx_memo t (kp + 1) m2 with
            | error e =>
              exact ⟨s1, fun j hj => s2 j (by omega)⟩
            | ok u2 =>
              dsimp only
              have htarget : cellAt m2 (kp + 1) (t - (kp + 1) * 2) = none := by
                have hrow := s2 (kp + 1) (by omega)
                unfold cellAt
                rw [hrow]
                exact hpre (by omega)
              constructor
              · intro kq idx v h
                have h2 := s1 kq idx v h
                have hne : ¬(kq = kp + 1 ∧ idx = t - (kp + 1) * 2) := by
                  rintro ⟨h3, h4⟩
                  rw [h3, h4] at h2
                  rw [htarget] at h2
                  exact Option.noConfusion h2
                rw [cellAt_setCell_ne m2 (kp + 1) (t - (kp + 1) * 2) mv kq idx hne]
                exact h2
              · intro j hj
                rw [nthD_row_setCell_ne m2 (kp + 1) (t - (kp + 1) * 2) mv j (by omega)]
                exact s2 j (by omega)

/-- C7: during a `calc_memo_all` run, memo cells are never overwritten with a
different value.  Formalised extensionally over a single `calc_memo` call
under the run's invariant (a `k > 0` call only ever targets an unfilled cell:
top-level calls target the untouched row `k`, and recursive calls are guarded
by `get_from_memo` returning `none`): every already-filled cell keeps exactly
its value in the resulting memo, and all rows above `k` are untouched — so
each cell transitions unfilled → filled at most once and is never rewritten.
This holds for every evaluator, also when the call returns an error (the
partially mutated memo still preserves every filled cell). -/
theorem c7_memo_cells_never_overwritten (ev : Nat → Nat → Except CalcDpError Int)
    (k t : Nat) (memo : Memo)
    (hpre : k ≠ 0 → cellAt memo k (t - k * 2) = none) :
    (∀ kq idx v, cellAt memo kq idx = some v →
      cellAt (calc_memo ev k t memo).2 kq idx = some v) ∧
    (∀ j, k < j → nthD (calc_memo ev k t memo).2 j [] = nthD memo j []) :=
  calc_memo_preserve ev k t memo hpre

/-- Witness for `c7_memo_cells_never_overwritten`: a partially filled memo for
`t_max = 4` whose cell `(1, 0)` holds value 5; running `calc_memo` at
`(t, k) = (4, 1)` keeps that cell intact. -/
theorem c7_memo_cells_never_overwritten_witness :
    cellAt ((calc_memo (fun _ _ => Except.ok (1 : Int)) 1 4
      [[none, some (0, 0, 5), none, none, none], [none, none, none]]).2) 0 1 =
      some (0, 0, 5) :=
  (c7_memo_cells_never_overwritten (fun _ _ => Except.ok (1 : Int)) 1 4
    [[none, some (0, 0, 5), none, none, none], [none, none, none]]
    (fun _ => by decide)).1 0 1 (0, 0, 5) (by decide)

theorem mem_natRange : ∀ (len lo x : Nat), x ∈ natRange lo len ↔ lo ≤ x ∧ x < lo + len := by
  intro len
  induction len with
  | zero =>
    intro lo x
    simp only [natRange, List.not_mem_nil, false_iff]
    omega
  | succ n ih =>
    intro lo x
    simp only [natRange, List.mem_cons, ih (lo + 1) x]
    omega

theorem natRange_pairwise_lt : ∀ (len lo : Nat), List.Pairwise (· < ·) (natRange lo len) := by
  intro len
  induction len with
  | zero => intro lo; exact List.Pairwise.nil
  | succ n ih =>
    intro lo
    refine List.pairwise_cons.mpr ⟨?_, ih (lo + 1)⟩
    intro x hx
    have := (mem_natRange n (lo + 1) x).mp hx
    omega

theorem lastD_irrel : ∀ (ys : List Nat) (y d d2 : Nat), lastD (y :: ys) d = lastD (y :: ys) d2 := by
  intro ys
  induction ys with
  | nil => intro y d d2; rfl
  | cons z zs ih =>
    intro y d d2
    show lastD (z :: zs) d = lastD (z :: zs) d2
    exact ih z d d2

theorem lastD_cons (x : Nat) (xs : List Nat) (d : Nat) : lastD (x :: xs) d = lastD xs x := by
  cases xs with
  | nil => rfl
  | cons y ys =>
    show lastD (y :: ys) d = lastD (y :: ys) x
    exact lastD_irrel ys y d x

theorem lastD_append_single : ∀ (xs : List Nat) (a d : Nat), lastD (xs ++ [a]) d = a := by
  intro xs
  induction xs with
  | nil => intro a d; rfl
  | cons x ys ih =>
    intro a d
    rw [List.cons_append, lastD_cons, ih a x]

theorem headD_append_single (xs : List Nat) (a d : Nat) (h : xs ≠ []) :
    (xs ++ [a]).headD d = xs.headD d := by
  cases xs with
  | nil => exact absurd rfl h
  | cons x ys => rfl

theorem consecFrom_append_single : ∀ (xs : List Nat) (p a : Nat),
    consecFrom p (xs ++ [a]) = consecFrom p xs ++ [(lastD xs p, a)] := by
  intro xs
  induction xs with
  | nil => intro p a; rfl
  | cons x ys ih =>
    intro p a
    show (p, x) :: consecFrom x (ys ++ [a]) = ((p, x) :: consecFrom x ys) ++ [(lastD (x :: ys) p, a)]
    rw [ih x a, lastD_cons]
    rfl

theorem listSum_append_single (l : List Int) (a : Int) : listSum (l ++ [a]) = listSum l + a := by
  induction l with
  | nil =>
    show listSum [a] = 0 + a
    show a + 0 = 0 + a
    omega
  | cons x xs ih =>
    show x + listSum (xs ++ [a]) = x + listSum xs + a
    rw [ih]
    omega

theorem mem_chains_zero (t : Nat) (s : List Nat) : s ∈ chains 0 t ↔ (1 ≤ t ∧ s = [t]) := by
  unfold chains
  by_cases h : 1 ≤ t
  · rw [if_pos h]
    simp [h]
  · rw [if_neg h]
    simp [h]

theorem mem_chains_succ (k t : Nat) (s : List Nat) :
    s ∈ chains (k + 1) t ↔ ∃ i s2, i < t - 1 ∧ s2 ∈ chains k i ∧ s = s2 ++ [t] := by
  show s ∈ (natRange 0 (t - 1)).flatMap _ ↔ _
  rw [List.mem_flatMap]
  constructor
  · rintro ⟨i, hi, hs⟩
    obtain ⟨s2, hs2, heq⟩ := List.mem_map.mp hs
    exact ⟨i, s2, by have := (mem_natRange (t - 1) 0 i).mp hi; omega, hs2, heq.symm⟩
  · rintro ⟨i, s2, hi, hs2, heq⟩
    refine ⟨i, (mem_natRange (t - 1) 0 i).mpr (by omega), ?_⟩
    exact List.mem_map.mpr ⟨s2, hs2, heq.symm⟩

theorem chains_lastD : ∀ (k t : Nat) (s : List Nat), s ∈ chains k t → ∀ d, lastD s d = t := by
  intro k
  induction k with
  | zero =>
    intro t s hs d
    obtain ⟨_, hst⟩ := (mem_chains_zero t s).mp hs
    rw [hst]
    rfl
  | succ kp ih =>
    intro t s hs d
    obtain ⟨i, s2, _, _, heq⟩ := (mem_chains_succ kp t s).mp hs
    rw [heq]
    exact lastD_append_single s2 t d

theorem chains_ne_nil : ∀ (k t : Nat) (s : List Nat), s ∈ chains k t → s ≠ [] := by
  intro k
  induction k with
  | zero =>
    intro t s hs
    obtain ⟨_, hst⟩ := (mem_chains_zero t s).mp hs
    rw [hst]
    exact List.cons_ne_nil t []
  | succ kp ih =>
    intro t s hs
    obtain ⟨i, s2, _, _, heq⟩ := (mem_chains_succ kp t s).mp hs
    rw [heq]
    exact fun h => by simpa using congrArg List.length h

theorem chains_lb : ∀ (k t : Nat) (s : List Nat), s ∈ chains k t → k * 2 + 1 ≤ t := by
  intro k
  induction k with
  | zero =>
    intro t s hs
    obtain ⟨ht, _⟩ := (mem_chains_zero t s).mp hs
    omega
  | succ kp ih =>
    intro t s hs
    obtain ⟨i, s2, hi, hs2, _⟩ := (mem_chains_succ kp t s).mp hs
    have := ih i s2 hs2
    omega

theorem chains_exists : ∀ (k t : Nat), 1 ≤ t → k * 2 + 1 ≤ t → ∃ s, s ∈ chains k t := by
  intro k
  induction k with
  | zero =>
    intro t ht _
    exact ⟨[t], (mem_chains_zero t [t]).mpr ⟨ht, rfl⟩⟩
  | succ kp ih =>
    intro t ht hk
    obtain ⟨s2, hs2⟩ := ih (kp * 2 + 1) (by omega) (by omega)
    exact ⟨s2 ++ [t], (mem_chains_succ kp t _).mpr ⟨kp * 2 + 1, s2, by omega, hs2, rfl⟩⟩

theorem chainScore_append (g : Nat → Nat → Int) (k i t : Nat) (s : List Nat)
    (hs : s ∈ chains k i) : chainScore g (s ++ [t]) = chainScore g s + g i t := by
  unfold chainScore
  rw [consecFrom_append_single, chains_lastD k i s hs 0, List.map_append]
  exact listSum_append_single _ _

theorem isBest_unique (g : Nat → Nat → Int) (t k : Nat) (v w : Int)
    (hv : IsBest g t k v) (hw : IsBest g t k w) : v = w := by
  obtain ⟨⟨s1, hs1, he1⟩, hub1⟩ := hv
  obtain ⟨⟨s2, hs2, he2⟩, hub2⟩ := hw
  have h1 := hub2 s1 hs1
  have h2 := hub1 s2 hs2
  omega

theorem isBest_zero (g : Nat → Nat → Int) (t : Nat) (ht : 1 ≤ t) :
    IsBest g t 0 (g 0 t) := by
  constructor
  · refine ⟨[t], (mem_chains_zero t [t]).mpr ⟨ht, rfl⟩, ?_⟩
    show g 0 t + 0 = g 0 t
    omega
  · intro s hs
    obtain ⟨_, hst⟩ := (mem_chains_zero t s).mp hs
    rw [hst]
    show g 0 t + 0 ≤ g 0 t
    omega

theorem headD_nthD {α : Type} (l : List α) (d : α) : l.headD d = nthD l 0 d := by
  cases l with
  | nil => rfl
  | cons x xs => rfl

theorem calc_max_k_iff (k t : Nat) (ht : 1 ≤ t) : k ≤ calc_max_k t ↔ k * 2 + 1 ≤ t := by
  unfold calc_max_k
  rw [Nat.le_div_iff_mul_le (by omega : 0 < 2)]
  omega

theorem calc_max_k_mono (t t2 : Nat) (h : t ≤ t2) : calc_max_k t ≤ calc_max_k t2 :=
  Nat.div_le_div_right (Nat.sub_le_sub_right h 1)

theorem check_idx_ok_of (t k : Nat) (memo : Memo) (t_max : Nat) (hsh : MemoShape t_max memo)
    (ht : 1 ≤ t) (htm : t ≤ t_max) (hk : k ≤ calc_max_k t) :
    check_idx_memo t k memo = Except.ok () := by
  obtain ⟨hlen, hrow⟩ := hsh
  have hrow0 : (nthD memo 0 []).length = t_max - 2 * 0 + 1 := hrow 0 (by omega)
  unfold check_idx_memo
  rw [headD_nthD]
  rw [if_neg (by omega : ¬t > (nthD memo 0 []).length - 1), if_neg (by omega : ¬t = 0),
    if_neg (by omega : ¬k > calc_max_k t)]

theorem check_idx_facts (t k : Nat) (memo : Memo) (u : Unit)
    (h : check_idx_memo t k memo = Except.ok u) :
    t ≤ (nthD memo 0 []).length - 1 ∧ 1 ≤ t ∧ k ≤ calc_max_k t := by
  unfold check_idx_memo at h
  rw [headD_nthD] at h
  by_cases h1 : t > (nthD memo 0 []).length - 1
  · rw [if_pos h1] at h
    exact absurd h (by simp)
  · rw [if_neg h1] at h
    by_cases h2 : t = 0
    · rw [if_pos h2] at h
      exact absurd h (by simp)
    · rw [if_neg h2] at h
      by_cases h3 : k > calc_max_k t
      · rw [if_pos h3] at h
        exact absurd h (by simp)
      · exact ⟨by omega, by omega, by omega⟩

theorem get_from_memo_eq (t k : Nat) (memo : Memo) (t_max : Nat) (hsh : MemoShape t_max memo)
    (ht : 1 ≤ t) (htm : t ≤ t_max) (hk : k ≤ calc_max_k t) :
    get_from_memo t k memo = Except.ok (cellAt memo k (t - k * 2)) := by
  unfold get_from_memo
  rw [check_idx_ok_of t k memo t_max hsh ht htm hk]
  rfl

theorem setNth_nthD_self {α : Type} : ∀ (l : List α) (n : Nat) (d : α),
    n < l.length → setNth l n (nthD l n d) = l := by
  intro l
  induction l with
  | nil => intro n d h; simp at h
  | cons x xs ih =>
    intro n d h
    cases n with
    | zero => rfl
    | succ m =>
      show x :: setNth xs m (nthD xs m d) = x :: xs
      rw [ih m d (by simpa using h)]

theorem cellAt_setCell_cases (m : Memo) (k i : Nat) (c : Cell) (kq idx : Nat) :
    cellAt (setCell m k i c) kq idx = cellAt m kq idx ∨
    (kq = k ∧ idx = i ∧ cellAt (setCell m k i c) kq idx = some c) := by
  by_cases hpos : kq = k ∧ idx = i
  · obtain ⟨h1, h2⟩ := hpos
    subst h1
    subst h2
    by_cases hk : kq < m.length
    · by_cases hi : idx < (nthD m kq []).length
      · exact Or.inr ⟨rfl, rfl, cellAt_setCell_self m kq idx c hk hi⟩
      · left
        unfold setCell
        rw [setNth_oob (nthD m kq []) idx (some c) (by omega), setNth_nthD_self m kq [] hk]
    · left
      unfold setCell
      rw [setNth_oob m kq _ (by omega)]
  · exact Or.inl (cellAt_setCell_ne m k i c kq idx hpos)

theorem cellAt_setCell_ne_none (m : Memo) (k i : Nat) (c : Cell) (kq idx : Nat)
    (h : cellAt m kq idx ≠ none) : cellAt (setCell m k i c) kq idx ≠ none := by
  rcases cellAt_setCell_cases m k i c kq idx with heq | ⟨_, _, heq⟩
  · rw [heq]; exact h
  · rw [heq]; exact Option.noConfusion

theorem shape_setCell (t_max : Nat) (m : Memo) (k i : Nat) (c : Cell)
    (hsh : MemoShape t_max m) : MemoShape t_max (setCell m k i c) := by
  obtain ⟨hlen, hrow⟩ := hsh
  constructor
  · unfold setCell
    rw [length_setNth]
    exact hlen
  · intro j hj
    unfold setCell at hj ⊢
    rw [length_setNth] at hj
    by_cases hjk : j = k
    · subst hjk
      rw [nthD_setNth_self m j _ [] (by omega), length_setNth]
      exact hrow j (by omega)
    · rw [nthD_setNth_ne m k j _ [] hjk]
      exact hrow j (by omega)

theorem chooseMax_isSome (l : List Cell) (h : l ≠ []) : ∃ c, chooseMax l = some c := by
  cases l with
  | nil => exact absurd rfl h
  | cons v vs => exact ⟨_, rfl⟩

theorem chooseMax_ub (l : List Cell) (c : Cell) (h : chooseMax l = some c) :
    ∀ d ∈ l, d.2.2 ≤ c.2.2 := by
  intro d hd
  cases l with
  | nil => exact absurd hd (List.not_mem_nil d)
  | cons v vs =>
    have hc : c = vs.foldl (fun acc val => if acc.2.2 ≤ val.2.2 then val else acc) v :=
      (Option.some.inj h).symm
    rw [hc]
    exact chooseFold_ub vs v d hd

theorem forall2_mem_right {R : Nat → Cell → Prop} {l : List Nat} {news : List Cell}
    (h : List.Forall₂ R l news) : ∀ c ∈ news, ∃ i, i ∈ l ∧ R i c := by
  induction h with
  | nil => intro c hc; exact absurd hc (List.not_mem_nil c)
  | cons hR hF ih =>
    intro c hc
    rcases List.mem_cons.mp hc with h1 | h1
    · subst h1
      exact ⟨_, List.mem_cons_self _ _, hR⟩
    · obtain ⟨i, hi, hRi⟩ := ih c h1
      exact ⟨i, List.mem_cons_of_mem _ hi, hRi⟩

theorem forall2_mem_left {R : Nat → Cell → Prop} {l : List Nat} {news : List Cell}
    (h : List.Forall₂ R l news) : ∀ i ∈ l, ∃ c, c ∈ news ∧ R i c := by
  induction h with
  | nil => intro i hi; exact absurd hi (List.not_mem_nil i)
  | cons hR hF ih =>
    intro i hi
    rcases List.mem_cons.mp hi with h1 | h1
    · subst h1
      exact ⟨_, List.mem_cons_self _ _, hR⟩
    · obtain ⟨c, hc, hRc⟩ := ih i h1
      exact ⟨c, List.mem_cons_of_mem _ hc, hRc⟩

theorem memoInv_set (g : Nat → Nat → Int) (t_max : Nat) (m : Memo) (k idx : Nat) (c : Cell)
    (hInv : MemoInv g t_max m)
    (hstored : c.2.1 = k)
    (hbest : IsBest g (idx + k * 2) k c.2.2)
    (hzero : k = 0 → c.1 = 0)
    (hsucc : ∀ kp, k = kp + 1 → kp * 2 + 1 ≤ c.1 ∧ c.1 + 2 ≤ idx + k * 2 ∧
      cellAt m kp (c.1 - kp * 2) ≠ none) :
    MemoInv g t_max (setCell m k idx c) := by
  obtain ⟨hsh, hcells⟩ := hInv
  refine ⟨shape_setCell t_max m k idx c hsh, ?_⟩
  intro kq idx2 c2 h2
  rcases cellAt_setCell_cases m k idx c kq idx2 with heq | ⟨hk, hi, heq⟩
  · rw [heq] at h2
    obtain ⟨o1, o2, o3, o4⟩ := hcells kq idx2 c2 h2
    refine ⟨o1, o2, o3, ?_⟩
    intro kp hkp
    obtain ⟨b1, b2, b3⟩ := o4 kp hkp
    exact ⟨b1, b2, cellAt_setCell_ne_none m k idx c kp (c2.1 - kp * 2) b3⟩
  · subst hk
    subst hi
    rw [heq] at h2
    have hc2 : c2 = c := (Option.some.inj h2).symm
    subst hc2
    refine ⟨hstored, hbest, hzero, ?_⟩
    intro kp hkp
    obtain ⟨b1, b2, b3⟩ := hsucc kp hkp
    exact ⟨b1, b2, cellAt_setCell_ne_none m kq idx2 c2 kp (c2.1 - kp * 2) b3⟩

theorem memoScan_sound (g : Nat → Nat → Int) (t_max kp t : Nat)
    (IH : ∀ (t2 : Nat) (m : Memo), MemoInv g t_max m → 1 ≤ t2 → t2 ≤ t_max →
      kp ≤ calc_max_k t2 → cellAt m kp (t2 - kp * 2) = none →
      ∃ p v m2, calc_memo (pureEv g) kp t2 m = (Except.ok (p, kp, v), m2) ∧
        MemoInv g t_max m2 ∧ cellAt m2 kp (t2 - kp * 2) = some (p, kp, v) ∧ IsBest g t2 kp v)
    (ht : 1 ≤ t) (htm : t ≤ t_max) :
    ∀ (l : List Nat) (vs : List Cell) (m : Memo),
      MemoInv g t_max m →
      (∀ i ∈ l, kp * 2 + 1 ≤ i ∧ i + 2 ≤ t) →
      ∃ news m2,
        memoScan (pureEv g) (fun i mm => calc_memo (pureEv g) kp i mm) kp t l vs m
          = (Except.ok (vs ++ news), m2) ∧
        MemoInv g t_max m2 ∧
        (∀ kq idx c, cellAt m kq idx = some c → cellAt m2 kq idx = some c) ∧
        (∀ j, kp < j → nthD m2 j [] = nthD m j []) ∧
        (∀ i ∈ l, cellAt m2 kp (i - kp * 2) ≠ none) ∧
        List.Forall₂ (fun (i : Nat) (c : Cell) => c.1 = i ∧ c.2.1 = kp + 1 ∧
          ∃ b, IsBest g i kp b ∧ c.2.2 = b + g i t) l news := by
  intro l
  induction l with
  | nil =>
    intro vs m hInv _
    refine ⟨[], m, ?_, hInv, fun kq idx c h => h, fun j _ => rfl, ?_, List.Forall₂.nil⟩
    · show (Except.ok vs, m) = (Except.ok (vs ++ []), m)
      rw [List.append_nil]
    · intro i hi
      exact absurd hi (List.not_mem_nil i)
  | cons i rest ih =>
    intro vs m hInv hb
    obtain ⟨hlo, hhi⟩ := hb i (List.mem_cons_self i rest)
    have hti : 1 ≤ i := by omega
    have htmi : i ≤ t_max := by omega
    have hki : kp ≤ calc_max_k i := (calc_max_k_iff kp i hti).mpr (by omega)
    have hget : get_from_memo i kp m = Except.ok (cellAt m kp (i - kp * 2)) :=
      get_from_memo_eq i kp m t_max hInv.1 hti htmi hki
    have hbrest : ∀ j ∈ rest, kp * 2 + 1 ≤ j ∧ j + 2 ≤ t :=
      fun j hj => hb j (List.mem_cons_of_mem i hj)
    cases hcell : cellAt m kp (i - kp * 2) with
    | some v =>
      have hck := hInv.2 kp (i - kp * 2) v hcell
      have harith : i - kp * 2 + kp * 2 = i := by omega
      have hbestv : IsBest g i kp v.2.2 := by
        have := hck.2.1
        rwa [harith] at this
      have hstep : memoScan (pureEv g) (fun i mm => calc_memo (pureEv g) kp i mm) kp t
          (i :: rest) vs m
          = memoScan (pureEv g) (fun i mm => calc_memo (pureEv g) kp i mm) kp t rest
            (vs ++ [(i, kp + 1, v.2.2 + g i t)]) m := by
        simp only [memoScan, hget, hcell, pureEv]
      obtain ⟨news2, m2, heq2, hInv2, hpres2, hrows2, hfill2, hfa2⟩ :=
        ih (vs ++ [(i, kp + 1, v.2.2 + g i t)]) m hInv hbrest
      refine ⟨(i, kp + 1, v.2.2 + g i t) :: news2, m2, ?_, hInv2, hpres2, hrows2, ?_, ?_⟩
      · rw [hstep, heq2, List.append_assoc, List.singleton_append]
      · intro j hj
        rcases List.mem_cons.mp hj with h1 | h1
        · subst h1
          rw [hpres2 kp (j - kp * 2) v hcell]
          exact Option.noConfusion
        · exact hfill2 j h1
      · exact List.Forall₂.cons ⟨rfl, rfl, v.2.2, hbestv, rfl⟩ hfa2
    | none =>
      obtain ⟨p, v, m2, heqc, hInv2, hcell2, hbest2⟩ := IH i m hInv hti htmi hki hcell
      have hm2 : (calc_memo (pureEv g) kp i m).2 = m2 := by rw [heqc]
      obtain ⟨P1, P2⟩ := calc_memo_preserve (pureEv g) kp i m (fun _ => hcell)
      rw [hm2] at P1 P2
      have hstep : memoScan (pureEv g) (fun i mm => calc_memo (pureEv g) kp i mm) kp t
          (i :: rest) vs m
          = memoScan (pureEv g) (fun i mm => calc_memo (pureEv g) kp i mm) kp t rest
            (vs ++ [(i, kp + 1, v + g i t)]) m2 := by
        simp only [memoScan, hget, hcell, heqc, pureEv]
      obtain ⟨news2, m3, heq2, hInv3, hpres3, hrows3, hfill3, hfa3⟩ :=
        ih (vs ++ [(i, kp + 1, v + g i t)]) m2 hInv2 hbrest
      refine ⟨(i, kp + 1, v + g i t) :: news2, m3, ?_, hInv3,
        fun kq idx c h => hpres3 kq idx c (P1 kq idx c h),
        fun j hj => (hrows3 j hj).trans (P2 j hj), ?_, ?_⟩
      · rw [hstep, heq2, List.append_assoc, List.singleton_append]
      · intro j hj
        rcases List.mem_cons.mp hj with h1 | h1
        · subst h1
          rw [hpres3 kp (j - kp * 2) (p, kp, v) hcell2]
          exact Option.noConfusion
        · exact hfill3 j h1
      · exact List.Forall₂.cons ⟨rfl, rfl, v, hbest2, rfl⟩ hfa3

theorem calc_memo_sound (g : Nat → Nat → Int) (t_max : Nat) :
    ∀ (k t : Nat) (memo : Memo),
      MemoInv g t_max memo → 1 ≤ t → t ≤ t_max → k ≤ calc_max_k t →
      (k = 0 ∨ cellAt memo k (t - k * 2) = none) →
      ∃ p v memo2, calc_memo (pureEv g) k t memo = (Except.ok (p, k, v), memo2) ∧
        MemoInv g t_max memo2 ∧
        cellAt memo2 k (t - k * 2) = some (p, k, v) ∧
        IsBest g t k v ∧
        (∀ kq idx c, cellAt memo kq idx = some c → cellAt memo2 kq idx = some c) ∧
        (∀ j, k < j → nthD memo2 j [] = nthD memo j []) := by
  intro k
  induction k with
  | zero =>
    intro t memo hInv ht htm hk _
    have hchk : check_idx_memo t 0 memo = Except.ok () :=
      check_idx_ok_of t 0 memo t_max hInv.1 ht htm hk
    have hget : get_from_memo t 0 memo = Except.ok (cellAt memo 0 (t - 0 * 2)) :=
      get_from_memo_eq t 0 memo t_max hInv.1 ht htm hk
    have harith : t - 0 * 2 + 0 * 2 = t := by omega
    cases hcell : cellAt memo 0 (t - 0 * 2) with
    | some v =>
      obtain ⟨p, k0, v2⟩ := v
      have hck := hInv.2 0 (t - 0 * 2) (p, k0, v2) hcell
      have hk0 : k0 = 0 := hck.1
      subst hk0
      have hbest : IsBest g t 0 v2 := by
        have := hck.2.1
        rwa [harith] at this
      refine ⟨p, v2, memo, ?_, hInv, hcell, hbest, fun kq idx c h => h, fun j _ => rfl⟩
      simp only [calc_memo, hchk, hget, hcell]
    | none =>
      have hbest0 : IsBest g (t - 0 * 2 + 0 * 2) 0 (g 0 t) := by
        rw [harith]
        exact isBest_zero g t ht
      have hrlen : (nthD memo 0 []).length = t_max - 2 * 0 + 1 := hInv.1.2 0 (by
        have := hInv.1.1
        omega)
      refine ⟨0, g 0 t, setCell memo 0 (t - 0 * 2) (0, 0, g 0 t), ?_, ?_, ?_,
        isBest_zero g t ht, ?_, ?_⟩
      · simp only [calc_memo, hchk, hget, hcell, pureEv, set_from_memo]
      · exact memoInv_set g t_max memo 0 (t - 0 * 2) (0, 0, g 0 t) hInv rfl hbest0
          (fun _ => rfl) (fun kp hkp => absurd hkp (by omega))
      · exact cellAt_setCell_self memo 0 (t - 0 * 2) (0, 0, g 0 t)
          (by have := hInv.1.1; omega) (by omega)
      · intro kq idx c h
        rcases cellAt_setCell_cases memo 0 (t - 0 * 2) (0, 0, g 0 t) kq idx with
          heq | ⟨h1, h2, heq⟩
        · rw [heq]
          exact h
        · rw [h1, h2, hcell] at h
          exact Option.noConfusion h
      · intro j hj
        exact nthD_row_setCell_ne memo 0 (t - 0 * 2) (0, 0, g 0 t) j (by omega)
  | succ kp ih =>
    intro t memo hInv ht htm hk hpre
    have hcellnone : cellAt memo (kp + 1) (t - (kp + 1) * 2) = none :=
      hpre.resolve_left (by omega)
    have hchk : check_idx_memo t (kp + 1) memo = Except.ok () :=
      check_idx_ok_of t (kp + 1) memo t_max hInv.1 ht htm hk
    have ht3 : (kp + 1) * 2 + 1 ≤ t := (calc_max_k_iff (kp + 1) t ht).mp hk
    have hb : ∀ i ∈ natRange (2 * (kp + 1) - 1) (t - 1 - (2 * (kp + 1) - 1)),
        kp * 2 + 1 ≤ i ∧ i + 2 ≤ t := by
      intro i hi
      have := (mem_natRange _ _ i).mp hi
      omega
    have IH2 : ∀ (t2 : Nat) (m : Memo), MemoInv g t_max m → 1 ≤ t2 → t2 ≤ t_max →
        kp ≤ calc_max_k t2 → cellAt m kp (t2 - kp * 2) = none →
        ∃ p v m2, calc_memo (pureEv g) kp t2 m = (Except.ok (p, kp, v), m2) ∧
          MemoInv g t_max m2 ∧ cellAt m2 kp (t2 - kp * 2) = some (p, kp, v) ∧
          IsBest g t2 kp v := by
      intro t2 m h1 h2 h3 h4 h5
      obtain ⟨p, v, m2, e1, e2, e3, e4, _, _⟩ := ih t2 m h1 h2 h3 h4 (Or.inr h5)
      exact ⟨p, v, m2, e1, e2, e3, e4⟩
    obtain ⟨news, m2, heqs, hInv2, hpres2, hrows2, hfill2, hfa2⟩ :=
      memoScan_sound g t_max kp t IH2 ht htm
        (natRange (2 * (kp + 1) - 1) (t - 1 - (2 * (kp + 1) - 1))) [] memo hInv hb
    have hlenl : (natRange (2 * (kp + 1) - 1) (t - 1 - (2 * (kp + 1) - 1))).length
        = t - 1 - (2 * (kp + 1) - 1) := length_natRange _ _
    have hlennews : news.length = t - 1 - (2 * (kp + 1) - 1) := by
      rw [← hfa2.length_eq]
      exact hlenl
    have hnenews : news ≠ [] := by
      intro hnil
      rw [hnil] at hlennews
      simp at hlennews
      omega
    obtain ⟨mv, hchoose⟩ := chooseMax_isSome news hnenews
    obtain ⟨mp, mk, mvv⟩ := mv
    obtain ⟨i0, hi0l, hmv1, hmv2, b0, hb0, hmvv⟩ :=
      forall2_mem_right hfa2 (mp, mk, mvv) (chooseMax_mem news (mp, mk, mvv) hchoose)
    have hmk : mk = kp + 1 := hmv2
    subst hmk
    have hmp : mp = i0 := hmv1
    have hi0b := hb i0 hi0l
    have hbestt : IsBest g t (kp + 1) mvv := by
      constructor
      · obtain ⟨⟨s0, hs0, hsc0⟩, _⟩ := hb0
        refine ⟨s0 ++ [t], (mem_chains_succ kp t _).mpr ⟨i0, s0, by omega, hs0, rfl⟩, ?_⟩
        rw [chainScore_append g kp i0 t s0 hs0, hsc0]
        have hv : mvv = b0 + g i0 t := hmvv
        omega
      · intro s hs
        obtain ⟨i1, s1, hi1, hs1, heq1⟩ := (mem_chains_succ kp t s).mp hs
        have hlb1 := chains_lb kp i1 s1 hs1
        have hi1l : i1 ∈ natRange (2 * (kp + 1) - 1) (t - 1 - (2 * (kp + 1) - 1)) :=
          (mem_natRange _ _ i1).mpr (by omega)
        obtain ⟨c1, hc1news, _, _, b1, hb1, hc1v⟩ := forall2_mem_left hfa2 i1 hi1l
        have hub1 := hb1.2 s1 hs1
        have hcm := chooseMax_ub news (mp, kp + 1, mvv) hchoose c1 hc1news
        rw [heq1, chainScore_append g kp i1 t s1 hs1]
        have h5 : c1.2.2 = b1 + g i1 t := hc1v
        have h6 : c1.2.2 ≤ mvv := hcm
        omega
    have hklen : kp + 1 < m2.length := by
      have h7 : kp + 1 ≤ calc_max_k t_max := le_trans hk (calc_max_k_mono t t_max htm)
      have := hInv2.1.1
      omega
    have hrowlen : (nthD m2 (kp + 1) []).length = t_max - 2 * (kp + 1) + 1 :=
      hInv2.1.2 (kp + 1) hklen
    have hcellm2 : cellAt m2 (kp + 1) (t - (kp + 1) * 2) = none := by
      unfold cellAt at hcellnone ⊢
      rw [hrows2 (kp + 1) (by omega)]
      exact hcellnone
    have hchk2 : check_idx_memo t (kp + 1) m2 = Except.ok () :=
      check_idx_ok_of t (kp + 1) m2 t_max hInv2.1 ht htm hk
    refine ⟨mp, mvv, setCell m2 (kp + 1) (t - (kp + 1) * 2) (mp, kp + 1, mvv), ?_, ?_, ?_,
      hbestt, ?_, ?_⟩
    · simp only [calc_memo, hchk, heqs, List.nil_append, hchoose, set_from_memo, hchk2]
    · refine memoInv_set g t_max m2 (kp + 1) (t - (kp + 1) * 2) (mp, kp + 1, mvv) hInv2 rfl
        ?_ (fun h => absurd h (by omega)) ?_
      · have : t - (kp + 1) * 2 + (kp + 1) * 2 = t := by omega
        rw [this]
        exact hbestt
      · intro kq hkq
        have h9 : (mp : Nat) = i0 := hmv1
        have h10 := hb i0 hi0l
        refine ⟨?_, ?_, ?_⟩
        · show kq * 2 + 1 ≤ mp
          rw [h9]
          omega
        · show mp + 2 ≤ t - (kp + 1) * 2 + (kp + 1) * 2
          rw [h9]
          have h11 : t - (kp + 1) * 2 + (kp + 1) * 2 = t := by omega
          rw [h11]
          exact h10.2
        · show cellAt m2 kq (mp - kq * 2) ≠ none
          have hkq3 : kq = kp := by omega
          rw [h9, hkq3]
          exact hfill2 i0 hi0l
    · exact cellAt_setCell_self m2 (kp + 1) (t - (kp + 1) * 2) (mp, kp + 1, mvv) hklen
        (by omega)
    · intro kq idx c h
      have h2 := hpres2 kq idx c h
      rcases cellAt_setCell_cases m2 (kp + 1) (t - (kp + 1) * 2) (mp, kp + 1, mvv) kq idx with
        heq | ⟨h3, h4, heq⟩
      · rw [heq]
        exact h2
      · subst h3
        subst h4
        rw [hcellm2] at h2
        exact Option.noConfusion h2
    · intro j hj
      rw [nthD_row_setCell_ne m2 (kp + 1) (t - (kp + 1) * 2) (mp, kp + 1, mvv) j (by omega)]
      exact hrows2 j (by omega)

theorem nthO_replicate {α : Type} : ∀ (n i : Nat) (a : α),
    nthO (List.replicate n a) i = if i < n then some a else none := by
  intro n
  induction n with
  | zero => intro i a; simp [nthO]
  | succ m ih =>
    intro i a
    cases i with
    | zero => simp [List.replicate, nthO]
    | succ j =>
      rw [List.replicate_succ]
      show nthO (List.replicate m a) j = _
      rw [ih j a]
      by_cases h : j < m
      · rw [if_pos h, if_pos (by omega)]
      · rw [if_neg h, if_neg (by omega)]

theorem memoInit_inv (g : Nat → Nat → Int) (t_max : Nat) :
    MemoInv g t_max ((natRange 0 (calc_max_k t_max + 1)).map
      fun i => List.replicate (t_max - 2 * i + 1) none) ∧
    ∀ k idx, cellAt ((natRange 0 (calc_max_k t_max + 1)).map
      fun i => List.replicate (t_max - 2 * i + 1) none) k idx = none := by
  have hrow : ∀ k, k < calc_max_k t_max + 1 →
      nthD ((natRange 0 (calc_max_k t_max + 1)).map
        fun i => List.replicate (t_max - 2 * i + 1) (none : Option Cell)) k []
      = List.replicate (t_max - 2 * k + 1) none := by
    intro k hk
    unfold nthD
    rw [nthO_map, nthO_natRange 0 _ k hk]
    simp
  have hlen : ((natRange 0 (calc_max_k t_max + 1)).map
      fun i => List.replicate (t_max - 2 * i + 1) (none : Option Cell)).length
      = calc_max_k t_max + 1 := by
    rw [List.length_map, length_natRange]
  have hcells : ∀ k idx, cellAt ((natRange 0 (calc_max_k t_max + 1)).map
      fun i => List.replicate (t_max - 2 * i + 1) none) k idx = none := by
    intro k idx
    unfold cellAt
    by_cases hk : k < calc_max_k t_max + 1
    · rw [hrow k hk]
      unfold nthD
      rw [nthO_replicate]
      by_cases h : idx < t_max - 2 * k + 1
      · rw [if_pos h]
        rfl
      · rw [if_neg h]
        rfl
    · have : nthO ((natRange 0 (calc_max_k t_max + 1)).map
          fun i => List.replicate (t_max - 2 * i + 1) (none : Option Cell)) k = none := by
        cases hn : nthO ((natRange 0 (calc_max_k t_max + 1)).map
            fun i => List.replicate (t_max - 2 * i + 1) (none : Option Cell)) k with
        | none => rfl
        | some row =>
          exfalso
          have h2 : nthO ((natRange 0 (calc_max_k t_max + 1)).map
              fun i => List.replicate (t_max - 2 * i + 1) (none : Option Cell)) k
              = (nthO (natRange 0 (calc_max_k t_max + 1)) k).map _ := nthO_map _ _ k
          rw [hn] at h2
          cases hmem : nthO (natRange 0 (calc_max_k t_max + 1)) k with
          | none => rw [hmem] at h2; exact Option.noConfusion h2
          | some x =>
            have h3 : k < calc_max_k t_max + 1 := by
              by_contra hcon
              have h4 : ∀ l : List Nat, ∀ j, l.length ≤ j → nthO l j = none := by
                intro l
                induction l with
                | nil => intro j _; rfl
                | cons y ys ihy =>
                  intro j hj
                  cases j with
                  | zero => simp at hj
                  | succ jj => exact ihy jj (by simpa using hj)
              have h5 := h4 (natRange 0 (calc_max_k t_max + 1)) k
                (by rw [length_natRange]; omega)
              rw [h5] at hmem
              exact Option.noConfusion hmem
            exact hk h3
      unfold nthD
      rw [this]
      rfl
  refine ⟨⟨⟨hlen, ?_⟩, ?_⟩, hcells⟩
  · intro i hi
    rw [hlen] at hi
    rw [hrow i hi, List.length_replicate]
  · intro k idx c h
    rw [hcells k idx] at h
    exact Option.noConfusion h

theorem calc_memo_all_go_sound (g : Nat → Nat → Int) (t_max : Nat) :
    ∀ (ks : List Nat) (m : Memo),
      MemoInv g t_max m → 1 ≤ t_max →
      (∀ k ∈ ks, k ≤ calc_max_k t_max ∧ (k = 0 ∨ cellAt m k (t_max - k * 2) = none)) →
      List.Pairwise (· < ·) ks →
      ∃ mf, calc_memo_all_go (pureEv g) t_max ks m = Except.ok mf ∧
        MemoInv g t_max mf ∧
        (∀ kq idx c, cellAt m kq idx = some c → cellAt mf kq idx = some c) ∧
        (∀ k ∈ ks, ∃ c, cellAt mf k (t_max - k * 2) = some c ∧ c.2.1 = k ∧
          IsBest g t_max k c.2.2) := by
  intro ks
  induction ks with
  | nil =>
    intro m hInv ht _ _
    exact ⟨m, rfl, hInv, fun kq idx c h => h,
      fun k hk => absurd hk (List.not_mem_nil k)⟩
  | cons k0 ks ih =>
    intro m hInv ht hks hpw
    obtain ⟨hk0max, hk0cell⟩ := hks k0 (List.mem_cons_self k0 ks)
    obtain ⟨p, v, m2, heq, hInv2, hcell2, hbest2, hpres2, hrows2⟩ :=
      calc_memo_sound g t_max k0 t_max m hInv ht (le_refl t_max) hk0max hk0cell
    obtain ⟨hlt, hpw2⟩ := List.pairwise_cons.mp hpw
    have hks2 : ∀ k ∈ ks, k ≤ calc_max_k t_max ∧
        (k = 0 ∨ cellAt m2 k (t_max - k * 2) = none) := by
      intro k hk
      obtain ⟨ha, hb2⟩ := hks k (List.mem_cons_of_mem k0 hk)
      refine ⟨ha, ?_⟩
      rcases hb2 with h0 | hnone
      · exact Or.inl h0
      · right
        unfold cellAt at hnone ⊢
        rw [hrows2 k (hlt k hk)]
        exact hnone
    obtain ⟨mf, heqf, hInvf, hpresf, hfilledf⟩ := ih m2 hInv2 ht hks2 hpw2
    refine ⟨mf, ?_, hInvf, fun kq idx c h => hpresf kq idx c (hpres2 kq idx c h), ?_⟩
    · show calc_memo_all_go (pureEv g) t_max (k0 :: ks) m = Except.ok mf
      simp only [calc_memo_all_go, heq, heqf]
    · intro k hk
      rcases List.mem_cons.mp hk with h1 | h1
      · subst h1
        exact ⟨(p, k, v), hpresf k (t_max - k * 2) (p, k, v) hcell2, rfl, hbest2⟩
      · exact hfilledf k h1

theorem calc_memo_all_sound (g : Nat → Nat → Int) (t_max : Nat) (ht : 1 ≤ t_max) :
    ∃ mf, calc_memo_all (pureEv g) t_max = Except.ok mf ∧ MemoInv g t_max mf ∧
      ∀ k : Nat, k ≤ calc_max_k t_max → ∃ c, cellAt mf k (t_max - k * 2) = some c ∧
        c.2.1 = k ∧ IsBest g t_max k c.2.2 := by
  obtain ⟨hInv0, hnone0⟩ := memoInit_inv g t_max
  obtain ⟨mf, heq, hInvf, _, hfill⟩ := calc_memo_all_go_sound g t_max
    (natRange 0 (calc_max_k t_max + 1))
    ((natRange 0 (calc_max_k t_max + 1)).map
      fun i => List.replicate (t_max - 2 * i + 1) none)
    hInv0 ht
    (fun k hk => ⟨by have := (mem_natRange _ _ k).mp hk; omega, Or.inr (hnone0 k _)⟩)
    (natRange_pairwise_lt _ _)
  refine ⟨mf, heq, hInvf, ?_⟩
  intro k hk
  exact hfill k ((mem_natRange _ _ k).mpr ⟨by omega, by omega⟩)

theorem chains_pairs : ∀ (k t : Nat) (s : List Nat), s ∈ chains k t → 2 ≤ s.headD 0 →
    ∀ pr ∈ consecFrom 0 s, pr.1 + 2 ≤ pr.2 ∧ pr.2 ≤ t := by
  intro k
  induction k with
  | zero =>
    intro t s hs hhead pr hpr
    obtain ⟨ht, hst⟩ := (mem_chains_zero t s).mp hs
    subst hst
    have hh : (2 : Nat) ≤ t := hhead
    rcases List.mem_cons.mp hpr with h1 | h1
    · rw [h1]
      refine ⟨?_, le_refl t⟩
      show 0 + 2 ≤ t
      omega
    · exact absurd h1 (List.not_mem_nil pr)
  | succ kp ih =>
    intro t s hs hhead pr hpr
    obtain ⟨i, s2, hi, hs2, heq⟩ := (mem_chains_succ kp t s).mp hs
    subst heq
    have hne2 := chains_ne_nil kp i s2 hs2
    have hhead2 : 2 ≤ s2.headD 0 := by
      rwa [headD_append_single s2 t 0 hne2] at hhead
    rw [consecFrom_append_single, chains_lastD kp i s2 hs2 0] at hpr
    rcases List.mem_append.mp hpr with h1 | h1
    · obtain ⟨ha1, ha2⟩ := ih i s2 hs2 hhead2 pr h1
      exact ⟨ha1, le_trans ha2 (by omega : i ≤ t)⟩
    · have hpr1 : pr = (i, t) := by simpa using h1
      rw [hpr1]
      refine ⟨?_, le_refl t⟩
      show i + 2 ≤ t
      omega

theorem value_tt_built (g : Nat → Nat → Int) (t_max a b : Nat) (ha : a + 2 ≤ b)
    (hb : b ≤ t_max) :
    value_tt ((natRange 0 (t_max - 1)).map fun tp => (rangeIncl (tp + 2) t_max).map (g tp))
      a b = VtRes.ok (g a b) := by
  have hord : order_change_point a b = Except.ok () := by
    unfold order_change_point
    rw [if_neg (by omega : ¬b = 0), if_neg (by omega : ¬(a ≥ b - 1 ∧ ¬(b = 1 ∧ a = 0)))]
  unfold value_tt
  rw [hord]
  have hlen : ((natRange 0 (t_max - 1)).map
      fun tp => (rangeIncl (tp + 2) t_max).map (g tp)).length = t_max - 1 := by
    rw [List.length_map, length_natRange]
  rw [hlen] at *
  rw [if_neg (by omega : ¬t_max - 1 < a)]
  have hrowO : nthO ((natRange 0 (t_max - 1)).map
      fun tp => (rangeIncl (tp + 2) t_max).map (g tp)) a
      = some ((rangeIncl (a + 2) t_max).map (g a)) := by
    rw [nthO_map, nthO_natRange 0 (t_max - 1) a (by omega)]
    simp
  rw [hrowO]
  dsimp only
  rw [if_neg (by omega : ¬b < a + 2)]
  have hrl : ((rangeIncl (a + 2) t_max).map (g a)).length = t_max + 1 - (a + 2) := by
    rw [List.length_map]
    unfold rangeIncl
    rw [length_natRange]
  rw [hrl, if_neg (by omega : ¬t_max + 1 - (a + 2) < b - a - 2)]
  have hentry : nthO ((rangeIncl (a + 2) t_max).map (g a)) (b - a - 2) = some (g a b) := by
    rw [nthO_map]
    unfold rangeIncl
    rw [nthO_natRange (a + 2) (t_max + 1 - (a + 2)) (b - a - 2) (by omega)]
    have harg : a + 2 + (b - a - 2) = b := by omega
    rw [harg]
    rfl
  rw [hentry]

/-- C1 (amended): for every pure evaluator `g`, horizon `t_max ≤ 8` and
`k ≤ calc_max_k t_max`, after a successful `calc_memo_all` the value
`get_value(t_max, k)` is the maximum of `chainScore g` (the sum of the
evaluator over consecutive segments) over all strictly increasing
change-point sequences with `k` interior points followed by the endpoint
`t_max` (so of length `k + 1`) that satisfy the minimum-spacing invariant;
moreover for every such sequence whose first change point is at least 2,
`sum_frol_cp` on the table built by `calc_value_all` returns exactly that
score (sequences starting at 1 hit the missing sentinel entry instead). -/
theorem c1_dp_matches_bruteforce (g : Nat → Nat → Int) (t_max k : Nat) (memo : Memo)
    (tbl : List (List Int)) (hsmall : t_max ≤ 8) (hk : k ≤ calc_max_k t_max)
    (hmemo : calc_memo_all (pureEv g) t_max = Except.ok memo)
    (htbl : calc_value_all (pureEv g) t_max = Except.ok tbl) :
    ∃ s0, s0 ∈ chains k t_max ∧
      get_value memo t_max k = Except.ok (chainScore g s0) ∧
      (∀ s ∈ chains k t_max, chainScore g s ≤ chainScore g s0) ∧
      (∀ s ∈ chains k t_max, 2 ≤ s.headD 0 →
        sum_frol_cp tbl s = VtRes.ok (chainScore g s)) := by
  by_cases h1 : 1 ≤ t_max
  · obtain ⟨mf, heqf, hInvf, hfill⟩ := calc_memo_all_sound g t_max h1
    have hmf : mf = memo := by
      rw [heqf] at hmemo
      exact Except.ok.inj hmemo
    subst hmf
    obtain ⟨c, hcell, hstored, hbest⟩ := hfill k hk
    have hget : get_from_memo t_max k mf = Except.ok (cellAt mf k (t_max - k * 2)) :=
      get_from_memo_eq t_max k mf t_max hInvf.1 h1 (le_refl t_max) hk
    have hgv : get_value mf t_max k = Except.ok c.2.2 := by
      unfold get_value
      rw [hget, hcell]
    have hrows : (fun t_k_1 => mapExcept (fun t_k => Except.ok (g t_k_1 t_k))
        (rangeIncl (t_k_1 + 2) t_max)) =
        (fun t_k_1 => Except.ok ((rangeIncl (t_k_1 + 2) t_max).map (g t_k_1))) :=
      funext fun tp => mapExcept_pure (g tp) _
    have hcv : calc_value_all (pureEv g) t_max = Except.ok ((natRange 0 (t_max - 1)).map
        fun tp => (rangeIncl (tp + 2) t_max).map (g tp)) := by
      unfold calc_value_all pureEv
      rw [hrows, mapExcept_pure]
    have htbl2 : tbl = (natRange 0 (t_max - 1)).map
        fun tp => (rangeIncl (tp + 2) t_max).map (g tp) := by
      rw [hcv] at htbl
      exact (Except.ok.inj htbl).symm
    obtain ⟨⟨s0, hs0, hsc0⟩, hub⟩ := hbest
    refine ⟨s0, hs0, ?_, ?_, ?_⟩
    · rw [hgv, hsc0]
    · intro s hs
      rw [hsc0]
      exact hub s hs
    · intro s hs hhead
      have hpairs := chains_pairs k t_max s hs hhead
      unfold sum_frol_cp
      rw [zip_popLast_consecFrom, htbl2]
      rw [collectVt_map_ok (fun pr => value_tt ((natRange 0 (t_max - 1)).map
          fun tp => (rangeIncl (tp + 2) t_max).map (g tp)) pr.1 pr.2)
          (fun pr => g pr.1 pr.2) (consecFrom 0 s)
          (fun pr hpr => value_tt_built g t_max pr.1 pr.2 (hpairs pr hpr).1
            (hpairs pr hpr).2)]
      rfl
  · exfalso
    have ht0 : t_max = 0 := by omega
    rw [ht0] at hmemo
    have h0 : calc_memo_all (pureEv g) 0
        = Except.error "Time step must be greater than 0" := rfl
    rw [h0] at hmemo
    exact Except.noConfusion hmemo

/-- C1 counterexample: with the constant-1 evaluator and `(T_max, k) = (6, 2)`
the DP value is 3, but the strictly increasing, spacing-valid sequences **of
length k = 2** ending exactly at 6 are `[1,6], [2,6], [3,6], [4,6]`
(enumerated by `chains 1 6`), and `sum_frol_cp` equals 3 on none of them (it
returns 2 on those starting at 2, 3, 4 and fails on `[1,6]`), so the claim as
stated — with sequences of length `k` rather than `k + 1` — is false. -/
theorem c1_length_counterexample :
    calc_memo_all (fun _ _ => Except.ok (1 : Int)) 6 = Except.ok memoSix ∧
    calc_value_all (fun _ _ => Except.ok (1 : Int)) 6 = Except.ok tblSix ∧
    get_value memoSix 6 2 = Except.ok 3 ∧
    chains 1 6 = [[1, 6], [2, 6], [3, 6], [4, 6]] ∧
    (∀ s ∈ chains 1 6, sum_frol_cp tblSix s ≠ VtRes.ok 3) := by
  refine ⟨by decide, by decide, by decide, by decide, by decide⟩

/-- Witness for `c1_dp_matches_bruteforce`: constant-1 evaluator, `t_max = 6`,
`k = 2`, with the table and memo computed above. -/
theorem c1_dp_matches_bruteforce_witness :
    ((6 : Nat) ≤ 8 ∧ 2 ≤ calc_max_k 6) ∧
    ∃ s0, s0 ∈ chains 2 6 ∧
      get_value memoSix 6 2 = Except.ok (chainScore (fun _ _ => (1 : Int)) s0) ∧
      (∀ s ∈ chains 2 6, chainScore (fun _ _ => (1 : Int)) s
        ≤ chainScore (fun _ _ => (1 : Int)) s0) ∧
      (∀ s ∈ chains 2 6, 2 ≤ s.headD 0 →
        sum_frol_cp tblSix s = VtRes.ok (chainScore (fun _ _ => (1 : Int)) s)) :=
  ⟨⟨by decide, by decide⟩,
   c1_dp_matches_bruteforce (fun _ _ => (1 : Int)) 6 2 memoSix tblSix (by decide)
     (by decide) (by decide) (by decide)⟩

theorem historyGo_stop (memo : Memo) : ∀ (fuel k : Nat),
    historyGo memo fuel 0 k = Except.ok [] := by
  intro fuel k
  cases fuel with
  | zero => rfl
  | succ f => rfl

theorem historyGo_sound (g : Nat → Nat → Int) (t_max : Nat) (memo : Memo)
    (hInv : MemoInv g t_max memo) :
    ∀ (t k : Nat) (c : Cell) (fuel : Nat), t ≤ fuel →
      get_from_memo t k memo = Except.ok (some c) →
      ∃ hist, historyGo memo fuel t k = Except.ok hist ∧ nthO hist 0 = some c ∧
        strictDecreasing (t :: hist.map fun d => d.1) = true ∧
        lastD (t :: hist.map fun d => d.1) 1 = 0 := by
  intro t
  induction t using Nat.strong_induction_on with
  | _ t ih =>
    intro k c fuel hfuel hc
    have hchk : ∃ u, check_idx_memo t k memo = Except.ok u := by
      unfold get_from_memo at hc
      cases hx : check_idx_memo t k memo with
      | error e =>
        rw [hx] at hc
        exact absurd hc (by simp)
      | ok u => exact ⟨u, rfl⟩
    obtain ⟨u, hu⟩ := hchk
    obtain ⟨hbound, ht1, hkmax⟩ := check_idx_facts t k memo u hu
    have hcellc : cellAt memo k (t - k * 2) = some c :=
      (get_from_memo_ok t k memo (some c) hc).symm
    have hck := hInv.2 k (t - k * 2) c hcellc
    have hstored : c.2.1 = k := hck.1
    have hrow0 : (nthD memo 0 []).length = t_max - 2 * 0 + 1 :=
      hInv.1.2 0 (by have := hInv.1.1; omega)
    have htmax : t ≤ t_max := by omega
    have hk2t : k * 2 + 1 ≤ t := (calc_max_k_iff k t ht1).mp hkmax
    cases fuel with
    | zero => omega
    | succ f =>
      have hne : ¬t = 0 := by omega
      cases hkc : k with
      | zero =>
        have hc1 : c.1 = 0 := hck.2.2.1 hkc
        refine ⟨[c], ?_, rfl, ?_, ?_⟩
        · rw [hkc] at hc
          simp only [historyGo, if_neg hne, hc, hstored, hkc, hc1]
          simp [historyGo_stop]
        · show strictDecreasing (t :: [c.1]) = true
          rw [hc1]
          show (decide (0 < t) && strictDecreasing [0]) = true
          rw [decide_eq_true (by omega : 0 < t)]
          rfl
        · show lastD (t :: [c.1]) 1 = 0
          rw [hc1]
          rfl
      | succ kp =>
        obtain ⟨hp1, hp2, hp3⟩ := hck.2.2.2 kp hkc
        have hp2t : c.1 + 2 ≤ t := by
          have harith : t - k * 2 + k * 2 = t := by omega
          rw [harith] at hp2
          exact hp2
        cases hcell2 : cellAt memo kp (c.1 - kp * 2) with
        | none => exact absurd hcell2 hp3
        | some c2 =>
          have hget2 : get_from_memo c.1 kp memo = Except.ok (some c2) := by
            rw [get_from_memo_eq c.1 kp memo t_max hInv.1 (by omega)
              (by omega : (c.1 : Nat) ≤ t_max)
              ((calc_max_k_iff kp c.1 (by omega)).mpr (by omega))]
            rw [hcell2]
          obtain ⟨hist2, he2, hh2, hd2, hl2⟩ :=
            ih c.1 (by omega) kp c2 f (by omega) hget2
          refine ⟨c :: hist2, ?_, rfl, ?_, ?_⟩
          · rw [hkc] at hc
            simp only [historyGo, if_neg hne, hc, hstored, hkc]
            have hiff : ((kp + 1 ≠ 0) = True) := by simp
            simp only [hiff, if_true, Nat.add_sub_cancel, he2]
          · show strictDecreasing (t :: c.1 :: hist2.map fun d => d.1) = true
            show (decide (c.1 < t) && strictDecreasing (c.1 :: hist2.map fun d => d.1)) = true
            rw [decide_eq_true (show c.1 < t by omega), hd2]
            rfl
          · show lastD (t :: c.1 :: hist2.map fun d => d.1) 1 = 0
            show lastD (c.1 :: hist2.map fun d => d.1) 1 = 0
            exact hl2

/-- C6: on a memo produced by a successful `calc_memo_all` (pure evaluator),
backtracking from any filled cell `(t, k)` succeeds; the first returned cell
is the cell of `(t, k)` itself, whose value is exactly `get_value(t, k)`; the
visited times `t, pred, pred', …` strictly decrease and the walk terminates
when the time reaches 0.  On any memo, as soon as the visited cell is
unfilled, `get_value_history` fails immediately with the uncalculated-value
error. -/
theorem c6_backtracking_history (g : Nat → Nat → Int) (t_max : Nat) (memo : Memo)
    (t k : Nat) (c : Cell)
    (hmemo : calc_memo_all (pureEv g) t_max = Except.ok memo)
    (hc : get_from_memo t k memo = Except.ok (some c)) :
    get_value memo t k = Except.ok c.2.2 ∧
    (∃ hist, get_value_history memo t k = Except.ok hist ∧ nthO hist 0 = some c ∧
      strictDecreasing (t :: hist.map fun d => d.1) = true ∧
      lastD (t :: hist.map fun d => d.1) 1 = 0) ∧
    (∀ (m2 : Memo) (t2 k2 : Nat), get_from_memo t2 k2 m2 = Except.ok none →
      get_value_history m2 t2 k2 = Except.error "Uncalculated value exist.") := by
  refine ⟨?_, ?_, ?_⟩
  · unfold get_value
    rw [hc]
  · by_cases h1 : 1 ≤ t_max
    · obtain ⟨mf, heqf, hInvf, _⟩ := calc_memo_all_sound g t_max h1
      have hmf : mf = memo := by
        rw [heqf] at hmemo
        exact Except.ok.inj hmemo
      subst hmf
      exact historyGo_sound g t_max mf hInvf t k c (t + 1) (by omega) hc
    · exfalso
      have ht0 : t_max = 0 := by omega
      rw [ht0] at hmemo
      have h0 : calc_memo_all (pureEv g) 0
          = Except.error "Time step must be greater than 0" := rfl
      rw [h0] at hmemo
      exact Except.noConfusion hmemo
  · intro m2 t2 k2 h2
    have ht2 : ¬t2 = 0 := by
      intro ht0
      subst ht0
      unfold get_from_memo at h2
      unfold check_idx_memo at h2
      by_cases hb : (0 : Nat) > (m2.headD []).length - 1
      · rw [if_pos hb] at h2
        exact absurd h2 (by simp)
      · rw [if_neg hb, if_pos rfl] at h2
        exact absurd h2 (by simp)
    show historyGo m2 (t2 + 1) t2 k2 = Except.error "Uncalculated value exist."
    simp only [historyGo, if_neg ht2, h2]

/-- Witness for `c6_backtracking_history` on the concrete `t_max = 6` run with
the constant-1 evaluator, from the filled cell `(6, 2)`; the second conjunct
is exercised on the all-unfilled memo. -/
theorem c6_backtracking_history_witness :
    get_value memoSix 6 2 = Except.ok ((4, 2, (3 : Int)) : Cell).2.2 ∧
    get_value_history memoInitSix 6 2 = Except.error "Uncalculated value exist." :=
  ⟨(c6_backtracking_history (fun _ _ => (1 : Int)) 6 memoSix 6 2 (4, 2, 3)
      (by decide) (by decide)).1,
   (c6_backtracking_history (fun _ _ => (1 : Int)) 6 memoSix 6 2 (4, 2, 3)
      (by decide) (by decide)).2.2 memoInitSix 6 2 (by decide)⟩
